import Mathlib

/-!
Verification development for the sqelf GELF server core (`src/sqelf/src/server.rs`).

The development shallowly embeds:

* the TCP framer `tcp::Decode` (`decode` / `decode_eof`), the NUL-delimited,
  size-bounded record parser with discard recovery;
* the driver loop of the framed reader (repeatedly calling `decode` after each
  network read until it asks for more data), so properties can be stated over
  arbitrarily chunked byte streams;
* the connection multiplexer `tcp::Listen::poll_next`;
* the event loop of `build` (lines 197-244);
* the keep-alive wrapper `tcp::TimeoutStream::poll_next`.

Bytes are modelled as natural numbers; the record delimiter is the NUL byte `0`.
Machine-integer behaviour that matters (the `usize::saturating_add` in `decode`)
is modelled explicitly over `Nat`.
-/

deriving instance DecidableEq for Except

namespace Sqelf

/-- Bytes are natural numbers; the frame delimiter `b'\0'` is `0`. -/
abbrev Byte := Nat

/-- `usize::MAX` on a 64-bit target. -/
def usizeMax : Nat := 2 ^ 64 - 1

/-- Rust `usize::saturating_add` (used at `self.max_size_bytes.saturating_add(1)`). -/
def satAdd (a b : Nat) : Nat := min (a + b) usizeMax

/-- `src[read_head..].iter().position(|b| *b == b'\0')`: index of the first NUL. -/
def findNul : List Byte → Option Nat
  | [] => none
  | b :: bs => if b = 0 then some 0 else (findNul bs).map (· + 1)

/-- The mutable state of `tcp::Decode` (the `receive` callable is kept opaque;
instead of invoking it, the model records the byte payloads passed to it). -/
structure DecodeSt where
  max_size_bytes : Nat
  read_head : Nat
  discarding : Bool
deriving Repr, DecidableEq

/-- `Decode::new(max_size_bytes, receive)`: `read_head = 0`, `discarding = false`. -/
def DecodeSt.init (max : Nat) : DecodeSt := ⟨max, 0, false⟩

/-- Instrumentation of a `decode` call: byte ranges consumed from the buffer.
`frame f` consumed `f ++ [0]` and passed `f` to the `receive` callable;
`discard bs` consumed `bs` while in the discarding state, invoking nothing;
`eofFrame f` consumed `f` and passed it to `receive` (final attempt in
`decode_eof`, no trailing delimiter). -/
inductive Ev where
  | frame (f : List Byte)
  | discard (bs : List Byte)
  | eofFrame (f : List Byte)
deriving Repr, DecidableEq

/-- The bytes a consumption event removed from the input buffer. -/
def Ev.consumed : Ev → List Byte
  | .frame f => f ++ [0]
  | .discard bs => bs
  | .eofFrame f => f

/-- The payloads passed to the `receive` callable (mid-stream `frame` events only). -/
def framesOf (evs : List Ev) : List (List Byte) :=
  evs.filterMap fun e => match e with | .frame f => some f | _ => none

/-- Result of one `decode` (or `decode_eof`) call: post state, remaining buffer,
consumption events in order, the payload handed to `receive` by the returning
branch (if any), and the number of `tcp_msg_overflow` increments. -/
structure DecRes where
  st : DecodeSt
  buf : List Byte
  events : List Ev
  frame : Option (List Byte)
  overflow : Nat
deriving Repr, DecidableEq

/-- Prefix events and add overflow increments produced before a recursive
`continue 'read_frame` iteration. -/
def DecRes.prepend (evs : List Ev) (n : Nat) (r : DecRes) : DecRes :=
  { r with events := evs ++ r.events, overflow := n + r.overflow }

/-- `tcp::Decode::decode` (server.rs lines 526-600), fuel-indexed.
`none` is returned when the slice indexing `src[self.read_head..]` would panic
(`read_head > src.len()`) or when fuel runs out; `decode` below supplies fuel
that is proven sufficient. Each loop iteration of `'read_frame` consumes one
unit of fuel. -/
def decodeF : Nat → DecodeSt → List Byte → Option DecRes
  | 0, _, _ => none
  | fuel + 1, st, src =>
    if st.read_head > src.length then
      none
    else
      let read_to := min (satAdd st.max_size_bytes 1) src.length
      match findNul (src.drop st.read_head) with
      | some offset =>
        if st.discarding then
          (decodeF fuel ⟨st.max_size_bytes, 0, false⟩ (src.drop (offset + st.read_head + 1))).map
            (DecRes.prepend [Ev.discard (src.take (offset + st.read_head + 1))] 0)
        else if offset + st.read_head > st.max_size_bytes then
          (decodeF fuel ⟨st.max_size_bytes, st.read_head, true⟩ src).map (DecRes.prepend [] 1)
        else
          some ⟨⟨st.max_size_bytes, 0, false⟩, src.drop (offset + st.read_head + 1),
                [Ev.frame (src.take (offset + st.read_head))],
                some (src.take (offset + st.read_head)), 0⟩
      | none =>
        if st.discarding then
          if (src.drop read_to).isEmpty then
            some ⟨⟨st.max_size_bytes, 0, true⟩, src.drop read_to,
                  [Ev.discard (src.take read_to)], none, 0⟩
          else
            (decodeF fuel ⟨st.max_size_bytes, 0, true⟩ (src.drop read_to)).map
              (DecRes.prepend [Ev.discard (src.take read_to)] 0)
        else if src.length > st.max_size_bytes then
          (decodeF fuel ⟨st.max_size_bytes, st.read_head, true⟩ src).map (DecRes.prepend [] 1)
        else
          some ⟨⟨st.max_size_bytes, read_to, false⟩, src, [], none, 0⟩

/-- Loop measure of `decode`: every `'read_frame` iteration either consumes
buffer bytes or switches `discarding` from `false` to `true`. -/
def meas (st : DecodeSt) (src : List Byte) : Nat :=
  2 * src.length + (if st.discarding then 0 else 1)

/-- `tcp::Decode::decode` with sufficient fuel. -/
def decode (st : DecodeSt) (src : List Byte) : Option DecRes :=
  decodeF (2 * src.length + 2) st src

/-- `tcp::Decode::decode_eof` (server.rs lines 602-616): one inner `decode`,
then, if no frame resulted and bytes remain, the whole residual buffer is taken
(`src.take()`), `read_head` is reset, and the residue is passed to `receive`. -/
def decode_eof (st : DecodeSt) (src : List Byte) : Option DecRes :=
  match decode st src with
  | none => none
  | some r =>
    match r.frame with
    | some _ => some r
    | none =>
      if r.buf.isEmpty then some r
      else
        some ⟨⟨r.st.max_size_bytes, 0, r.st.discarding⟩, [],
              r.events ++ [Ev.eofFrame r.buf], some r.buf, r.overflow⟩

/-- Accumulated outcome of repeatedly calling `decode` on one buffer. -/
structure DrainRes where
  st : DecodeSt
  buf : List Byte
  events : List Ev
  overflow : Nat
deriving Repr, DecidableEq

/-- The framed reader's read loop: after bytes arrive, `decode` is called
repeatedly, yielding one item per call, until it returns no frame (more data
needed). Fuel-indexed; each produced frame consumes at least one buffer byte. -/
def drainF : Nat → DecodeSt → List Byte → Option DrainRes
  | 0, _, _ => none
  | fuel + 1, st, src =>
    match decode st src with
    | none => none
    | some r =>
      match r.frame with
      | none => some ⟨r.st, r.buf, r.events, r.overflow⟩
      | some _ =>
        (drainF fuel r.st r.buf).map fun d =>
          ⟨d.st, d.buf, r.events ++ d.events, r.overflow + d.overflow⟩

/-- The framed reader's read loop with sufficient fuel. -/
def drain (st : DecodeSt) (src : List Byte) : Option DrainRes :=
  drainF (src.length + 1) st src

/-- Process a list of network reads (chunks): append each chunk to the buffer,
then run the decode loop; collect all consumption events and overflow counts. -/
def runChunks : List (List Byte) → DecodeSt → List Byte → Option DrainRes
  | [], st, buf => some ⟨st, buf, [], 0⟩
  | c :: cs, st, buf =>
    match drain st (buf ++ c) with
    | none => none
    | some d =>
      (runChunks cs d.st d.buf).map fun r =>
        ⟨r.st, r.buf, d.events ++ r.events, d.overflow + r.overflow⟩

/-- One TCP connection's framer fed a byte stream split into arbitrary chunks,
starting from `Decode::new`. -/
def tcpRun (max : Nat) (chunks : List (List Byte)) : Option DrainRes :=
  runChunks chunks (DecodeSt.init max) []

/-- All bytes the events consumed, in order. -/
def consumedBytes (evs : List Ev) : List Byte :=
  (evs.map Ev.consumed).flatten

/-! ### Specification-side record machine

Modelled from the spec: "a stream of GELF records separated by single `0x00`
bytes"; "Records strictly longer than `tcp_max_record_bytes` (the `NUL` itself
does not count toward the length) are discarded; the server re-synchronises on
the next `NUL`"; "exactly one `tcp_msg_overflow` increment occurs per oversize
record". The machine consumes one byte at a time, so it is chunking-oblivious
by construction; the refinement theorems relate it to the framer. -/

/-- Spec-side state: either collecting the current record's bytes, or skipping
an oversize record until its delimiter. -/
structure SpecSt where
  discarding : Bool
  pending : List Byte
deriving Repr, DecidableEq

/-- Spec-side initial state: collecting, nothing pending. -/
def SpecSt.init : SpecSt := ⟨false, []⟩

/-- Modelled from the spec: consume one byte. A `NUL` delivers the pending
record (while collecting) or ends the skipped record (while discarding); a
record growing beyond `max` counts one overflow and switches to discarding. -/
def specByte (max : Nat) (s : SpecSt) (b : Byte) : SpecSt × Option (List Byte) × Nat :=
  if s.discarding then
    if b = 0 then (⟨false, []⟩, none, 0) else (s, none, 0)
  else if b = 0 then (⟨false, []⟩, some s.pending, 0)
  else if s.pending.length + 1 > max then (⟨true, []⟩, none, 1)
  else (⟨false, s.pending ++ [b]⟩, none, 0)

/-- Modelled from the spec: run the record machine over a byte sequence,
collecting delivered records (in order) and overflow increments. -/
def specRun (max : Nat) : SpecSt → List Byte → SpecSt × List (List Byte) × Nat
  | s, [] => (s, [], 0)
  | s, b :: bs =>
    let x := specByte max s b
    let y := specRun max x.1 bs
    (y.1, x.2.1.toList ++ y.2.1, x.2.2 + y.2.2)

/-- Modelled from the spec: the records of a byte stream — maximal `NUL`-free
segments. First component: the complete (delimited) records in wire order;
second: the trailing partial record (no delimiter yet). -/
def records : List Byte → List (List Byte) × List Byte
  | [] => ([], [])
  | b :: rest =>
    if b = 0 then ([] :: (records rest).1, (records rest).2)
    else
      match records rest with
      | (r :: rs, p) => ((b :: r) :: rs, p)
      | ([], p) => ([], b :: p)

/-- Correspondence between a framer state (between read-loop drains) and a
spec-side state. -/
def Matches (st : DecodeSt) (buf : List Byte) (max : Nat) (s : SpecSt) : Prop :=
  st.max_size_bytes = max ∧
  ((s.discarding = true ∧ st.discarding = true ∧ buf = [] ∧ s.pending = [] ∧
      st.read_head = 0) ∨
   (s.discarding = false ∧ st.discarding = false ∧ buf = s.pending ∧ 0 ∉ buf ∧
      buf.length ≤ max ∧ st.read_head ≤ buf.length))

/-! ### The connection multiplexer `tcp::Listen`

`tcp::Listen::poll_next` (server.rs lines 430-482) is embedded as a function of
the multiplexer state (`accept` fused-done flag, active connection list, cap)
and of two oracle lists describing what the wrapped streams return on each
successive poll during this one `poll_next` call.  An exhausted oracle list
means every further poll is `Pending`.  A `ConnPoll.ready` names the index of
the session that completed; an out-of-range index cannot be produced by
`FuturesUnordered` (it only yields members), and the model treats it as
`Pending`. -/

/-- One poll of the fused acceptor stream: a new connection, end of the
acceptor, or not ready. -/
inductive AcceptPoll (σ : Type) where
  | ready (s : σ)
  | closed
  | pending
deriving Repr, DecidableEq

/-- One poll of the `FuturesUnordered` of sessions: session `i` produced
`some` item (`Except.ok` a value or `Except.error`), or session `i` ended
(`none`), or nothing is ready. -/
inductive ConnPoll (τ ε : Type) where
  | ready (i : Nat) (item : Option (Except ε τ))
  | pending
deriving Repr, DecidableEq

/-- Outcome of `Listen::poll_next`, with the post state (acceptor-done flag
and active set) recorded: `item` is `Poll::Ready(Some(_))`, `ended` is
`Poll::Ready(None)`, `pending` is `Poll::Pending`. -/
inductive PollOut (σ τ ε : Type) where
  | item (v : Except ε τ) (done : Bool) (conns : List σ)
  | ended (done : Bool) (conns : List σ)
  | pending (done : Bool) (conns : List σ)
deriving Repr, DecidableEq

/-- The `'fill_conns` loop: while the active set is below `max`, poll the
fused acceptor; a ready connection is pushed, `Ready(None)` marks the acceptor
done and breaks, `Pending` breaks. Returns (done flag, active set, unused
oracle). -/
def fillConns (max : Nat) : List (AcceptPoll σ) → Bool → List σ →
    Bool × List σ × List (AcceptPoll σ)
  | [], done, conns => (done, conns, [])
  | a :: rest, done, conns =>
    if conns.length < max then
      if done then (done, conns, a :: rest)
      else
        match a with
        | .ready s => fillConns max rest done (conns ++ [s])
        | .closed => (true, conns, rest)
        | .pending => (done, conns, rest)
    else (done, conns, a :: rest)

/-- The `'poll_conns` loop of `Listen::poll_next`: fill the active set, then
poll the sessions. A session yielding `Ok` is pushed back and its item
returned; a session yielding `Err` is dropped and the error returned; a session
that ended is dropped silently and the loop continues; otherwise the loop
breaks and the stream ends iff the acceptor is done. -/
def pollLoop (max : Nat) : List (ConnPoll τ ε) → Bool → List σ → List (AcceptPoll σ) →
    PollOut σ τ ε
  | [], done, conns, accs =>
    let f := fillConns max accs done conns
    if f.1 then .ended f.1 f.2.1 else .pending f.1 f.2.1
  | cp :: rest, done, conns, accs =>
    let f := fillConns max accs done conns
    match cp with
    | .pending => if f.1 then .ended f.1 f.2.1 else .pending f.1 f.2.1
    | .ready i none =>
      if i < f.2.1.length then pollLoop max rest f.1 (f.2.1.eraseIdx i) f.2.2
      else if f.1 then .ended f.1 f.2.1 else .pending f.1 f.2.1
    | .ready i (some (.ok t)) =>
      if h : i < f.2.1.length then
        .item (.ok t) f.1 (f.2.1.eraseIdx i ++ [f.2.1.get ⟨i, h⟩])
      else if f.1 then .ended f.1 f.2.1 else .pending f.1 f.2.1
    | .ready i (some (.error e)) =>
      if i < f.2.1.length then .item (.error e) f.1 (f.2.1.eraseIdx i)
      else if f.1 then .ended f.1 f.2.1 else .pending f.1 f.2.1

/-- The active set left by a `poll_next` outcome. -/
def PollOut.conns : PollOut σ τ ε → List σ
  | .item _ _ cs => cs
  | .ended _ cs => cs
  | .pending _ cs => cs

/-- The acceptor-done flag left by a `poll_next` outcome. -/
def PollOut.acceptDone : PollOut σ τ ε → Bool
  | .item _ d _ => d
  | .ended d _ => d
  | .pending d _ => d

/-- The fixed connection cap `tcp::Server::build` passes to `.listen(1024)`
(server.rs line 400). -/
def maxConnections : Nat := 1024

/-! ### The event loop of `build` (server.rs lines 197-244) -/

/-- A value of the receiver stream as consumed by the event loop. -/
inductive ReceivedV (μ : Type) where
  | incomplete
  | complete (m : μ)
deriving Repr, DecidableEq

/-- One firing of the `select!`: the next receiver item (`none` = the stream
terminated), the programmatic close signal, or the OS interrupt. -/
inductive LoopEvent (μ ε : Type) where
  | msg (x : Option (Except ε (ReceivedV μ)))
  | close
  | ctrlc
deriving Repr, DecidableEq

/-- What the loop body does next: another iteration, a `break`, or the
`unreachable!` panic on receiver-stream termination. -/
inductive LoopControl where
  | next
  | exit
  | fatal
deriving Repr, DecidableEq

/-- The metric counters the event loop increments. -/
structure Counters where
  receive_ok : Nat
  receive_err : Nat
  process_ok : Nat
  process_err : Nat
deriving Repr, DecidableEq

/-- One iteration of the `loop { select! { ... } }` in `build`: counter
updates and control flow per event, with the `process` callable's outcome a
parameter. -/
def loopStep (process : μ → Except ε Unit) (c : Counters) :
    LoopEvent μ ε → Counters × LoopControl
  | .msg (some (.ok (.complete m))) =>
    match process m with
    | .ok _ =>
      ({ c with receive_ok := c.receive_ok + 1, process_ok := c.process_ok + 1 }, .next)
    | .error _ =>
      ({ c with receive_ok := c.receive_ok + 1, process_err := c.process_err + 1 }, .next)
  | .msg (some (.ok .incomplete)) => (c, .next)
  | .msg (some (.error _)) => ({ c with receive_err := c.receive_err + 1 }, .next)
  | .msg none => (c, .fatal)
  | .close => (c, .exit)
  | .ctrlc => (c, .exit)

/-! ### The keep-alive wrapper `tcp::TimeoutStream` (server.rs lines 646-668) -/

/-- One poll of the inner `Timeout<S>` stream: the keep-alive elapsed
(`Ready(Some(Err(_)))`), the protocol produced an item (`Ready(Some(Ok(_)))`),
the inner stream completed (`Ready(None)`), or `Pending`. -/
inductive TimerPoll (α : Type) where
  | elapsed
  | item (a : α)
  | closed
  | pending
deriving Repr, DecidableEq

/-- Outcome of `TimeoutStream::poll_next` as seen by its consumer. -/
inductive TimeoutOut (α : Type) where
  | item (a : α)
  | ended
  | pending
deriving Repr, DecidableEq

/-- `TimeoutStream::poll_next`, paired with the number of `tcp_conn_timeout`
increments it performs. -/
def timeoutPoll : TimerPoll α → TimeoutOut α × Nat
  | .elapsed => (.ended, 1)
  | .item a => (.item a, 0)
  | .closed => (.ended, 0)
  | .pending => (.pending, 0)

/-! ## Basic facts about `findNul` -/

theorem findNul_some_lt {l : List Byte} {i : Nat} (h : findNul l = some i) :
    i < l.length := by
  induction l generalizing i with
  | nil => simp [findNul] at h
  | cons b bs ih =>
    simp only [findNul] at h
    split at h
    · cases h
      simp
    · rcases Option.map_eq_some'.mp h with ⟨j, hj, rfl⟩
      have := ih hj
      simp only [List.length_cons]
      omega

theorem findNul_eq_none {l : List Byte} (h : 0 ∉ l) : findNul l = none := by
  induction l with
  | nil => rfl
  | cons b bs ih =>
    simp only [List.mem_cons, not_or] at h
    simp only [findNul]
    rw [if_neg (fun hb => h.1 hb.symm), ih h.2]
    rfl

theorem findNul_append : ∀ (a : List Byte), 0 ∉ a → ∀ d : List Byte,
    findNul (a ++ 0 :: d) = some a.length := by
  intro a
  induction a with
  | nil => intro _ d; simp [findNul]
  | cons b bs ih =>
    intro h d
    simp only [List.mem_cons, not_or] at h
    simp only [List.cons_append, findNul, List.append_eq]
    rw [if_neg (fun hb => h.1 hb.symm), ih h.2]
    rfl

theorem findNul_drop {l : List Byte} {i : Nat} (h : findNul l = some i) :
    l.drop i = 0 :: l.drop (i + 1) := by
  induction l generalizing i with
  | nil => simp [findNul] at h
  | cons b bs ih =>
    simp only [findNul] at h
    split at h
    · next hb =>
      cases h
      simp [hb]
    · rcases Option.map_eq_some'.mp h with ⟨j, hj, rfl⟩
      simpa using ih hj

theorem one_le_usizeMax : 1 ≤ usizeMax := by
  norm_num [usizeMax]

/-! ## Fuel monotonicity of `decodeF` -/

theorem decodeF_mono : ∀ (f g : Nat) (st : DecodeSt) (src : List Byte),
    meas st src < f → f ≤ g → decodeF f st src = decodeF g st src := by
  intro f
  induction f with
  | zero => intro g st src hm _; exact absurd hm (Nat.not_lt_zero _)
  | succ f ih =>
    intro g st src hm hle
    obtain ⟨g, rfl⟩ : ∃ g', g = g' + 1 := ⟨g - 1, by omega⟩
    obtain ⟨max, rh, disc⟩ := st
    simp only [decodeF]
    by_cases hrh : rh > src.length
    · simp [hrh]
    · simp only [if_neg hrh]
      have hU := one_le_usizeMax
      cases hfn : findNul (src.drop rh) with
      | some offset =>
        have hofs : offset < src.length - rh := by
          have h1 := findNul_some_lt hfn
          rwa [List.length_drop] at h1
        simp only [hfn]
        cases disc with
        | true =>
          have hm2 : 2 * src.length < f + 1 := by simpa [meas] using hm
          simp only [eq_self_iff_true, if_true]
          rw [ih g ⟨max, 0, false⟩ _
            (by simp [meas, List.length_drop]; omega) (by omega)]
        | false =>
          have hm2 : 2 * src.length + 1 < f + 1 := by simpa [meas] using hm
          simp only [if_neg Bool.false_ne_true]
          by_cases hov : offset + rh > max
          · simp only [if_pos hov]
            rw [ih g ⟨max, rh, true⟩ src (by simp [meas]; omega) (by omega)]
          · simp only [if_neg hov]
      | none =>
        simp only [hfn]
        cases disc with
        | true =>
          have hm2 : 2 * src.length < f + 1 := by simpa [meas] using hm
          simp only [eq_self_iff_true, if_true]
          by_cases hemp : (src.drop (min (satAdd max 1) src.length)).isEmpty = true
          · simp only [if_pos hemp]
          · simp only [if_neg hemp]
            have hne : src.drop (min (satAdd max 1) src.length) ≠ [] := by
              intro hnil
              exact hemp (by simp [hnil])
            have hlt : min (satAdd max 1) src.length < src.length := by
              by_contra hc
              exact hne (List.drop_eq_nil_iff.mpr (by omega))
            have hpos : 1 ≤ min (satAdd max 1) src.length := by
              have h1 : 1 ≤ satAdd max 1 := by simp only [satAdd]; omega
              omega
            rw [ih g ⟨max, 0, true⟩ _
              (by simp [meas, List.length_drop]; omega) (by omega)]
        | false =>
          have hm2 : 2 * src.length + 1 < f + 1 := by simpa [meas] using hm
          simp only [if_neg Bool.false_ne_true]
          by_cases hov : src.length > max
          · simp only [if_pos hov]
            rw [ih g ⟨max, rh, true⟩ src (by simp [meas]; omega) (by omega)]
          · simp only [if_neg hov]

/-- One-step unfolding of `decode` with the recursive `'read_frame`
iterations re-expressed through `decode` itself. -/
theorem decode_unfold (max rh : Nat) (disc : Bool) (src : List Byte) :
    decode ⟨max, rh, disc⟩ src =
      if rh > src.length then none
      else
        match findNul (src.drop rh) with
        | some offset =>
          if disc then
            (decode ⟨max, 0, false⟩ (src.drop (offset + rh + 1))).map
              (DecRes.prepend [Ev.discard (src.take (offset + rh + 1))] 0)
          else if offset + rh > max then
            (decode ⟨max, rh, true⟩ src).map (DecRes.prepend [] 1)
          else
            some ⟨⟨max, 0, false⟩, src.drop (offset + rh + 1),
                  [Ev.frame (src.take (offset + rh))],
                  some (src.take (offset + rh)), 0⟩
        | none =>
          if disc then
            if (src.drop (min (satAdd max 1) src.length)).isEmpty then
              some ⟨⟨max, 0, true⟩,
                    src.drop (min (satAdd max 1) src.length),
                    [Ev.discard (src.take (min (satAdd max 1) src.length))],
                    none, 0⟩
            else
              (decode ⟨max, 0, true⟩
                  (src.drop (min (satAdd max 1) src.length))).map
                (DecRes.prepend
                  [Ev.discard (src.take (min (satAdd max 1) src.length))] 0)
          else if src.length > max then
            (decode ⟨max, rh, true⟩ src).map (DecRes.prepend [] 1)
          else
            some ⟨⟨max, min (satAdd max 1) src.length, false⟩,
                  src, [], none, 0⟩ := by
  simp only [decode]
  rw [show 2 * src.length + 2 = 2 * src.length + 1 + 1 from rfl]
  conv_lhs => rw [decodeF]
  by_cases hrh : rh > src.length
  · simp [hrh]
  · simp only [if_neg hrh]
    have hU := one_le_usizeMax
    cases hfn : findNul (src.drop rh) with
    | some offset =>
      have hofs : offset < src.length - rh := by
        have h1 := findNul_some_lt hfn
        rwa [List.length_drop] at h1
      simp only [hfn]
      cases disc with
      | true =>
        simp only [eq_self_iff_true, if_true]
        rw [← decodeF_mono (2 * (src.drop (offset + rh + 1)).length + 2)
          (2 * src.length + 1) ⟨max, 0, false⟩ (src.drop (offset + rh + 1))
          (by simp [meas, List.length_drop])
          (by simp only [List.length_drop]; omega)]
      | false =>
        simp only [if_neg Bool.false_ne_true]
        by_cases hov : offset + rh > max
        · simp only [if_pos hov]
          rw [decodeF_mono (2 * src.length + 1) (2 * src.length + 2) ⟨max, rh, true⟩ src
            (by simp [meas]) (by omega)]
        · simp only [if_neg hov]
    | none =>
      simp only [hfn]
      cases disc with
      | true =>
        simp only [eq_self_iff_true, if_true]
        by_cases hemp : (src.drop (min (satAdd max 1) src.length)).isEmpty = true
        · simp only [if_pos hemp]
        · simp only [if_neg hemp]
          have hne : src.drop (min (satAdd max 1) src.length) ≠ [] := by
            intro hnil
            exact hemp (by simp [hnil])
          have hlt : min (satAdd max 1) src.length < src.length := by
            by_contra hc
            exact hne (List.drop_eq_nil_iff.mpr (by omega))
          rw [← decodeF_mono (2 * (src.drop (min (satAdd max 1) src.length)).length + 2)
            (2 * src.length + 1) ⟨max, 0, true⟩ _
            (by simp [meas, List.length_drop])
            (by
              simp only [List.length_drop]
              have hpos : 1 ≤ satAdd max 1 := by simp only [satAdd]; omega
              omega)]
      | false =>
        simp only [if_neg Bool.false_ne_true]
        by_cases hov : src.length > max
        · simp only [if_pos hov]
          rw [decodeF_mono (2 * src.length + 1) (2 * src.length + 2) ⟨max, rh, true⟩ src
            (by simp [meas]) (by omega)]
        · simp only [if_neg hov]

theorem prepend_prepend (e₁ e₂ : List Ev) (n₁ n₂ : Nat) (r : DecRes) :
    DecRes.prepend e₁ n₁ (DecRes.prepend e₂ n₂ r) =
      DecRes.prepend (e₁ ++ e₂) (n₁ + n₂) r := by
  simp [DecRes.prepend, Nat.add_assoc]

/-! ## How `decode` acts on decomposed buffers -/

/-- Scanning, a delimiter in reach, record within bounds: the record is split
off and passed to `receive`. -/
theorem decode_scan_frame {max rh : Nat} {a : List Byte} (d : List Byte) (ha : 0 ∉ a)
    (hrh : rh ≤ a.length) (hmax : a.length ≤ max) :
    decode ⟨max, rh, false⟩ (a ++ 0 :: d) =
      some ⟨⟨max, 0, false⟩, d, [Ev.frame a], some a, 0⟩ := by
  have hnd : 0 ∉ a.drop rh := fun h => ha (List.mem_of_mem_drop h)
  have hlen : (a ++ 0 :: d).length = a.length + 1 + d.length := by
    simp
    omega
  have htake : (a ++ 0 :: d).take a.length = a := List.take_left' rfl
  have hdrop : (a ++ 0 :: d).drop (a.length + 1) = d := by
    rw [List.append_cons]
    exact List.drop_left' (by simp)
  rw [decode_unfold]
  rw [if_neg (by simp only [hlen]; omega)]
  rw [List.drop_append_of_le_length hrh, findNul_append _ hnd d]
  simp only [List.length_drop, if_neg Bool.false_ne_true]
  rw [Nat.sub_add_cancel hrh]
  rw [if_neg (by omega : ¬a.length > max)]
  rw [htake, hdrop]

/-- Scanning, a delimiter in reach, record over bounds: one overflow increment,
the record and its delimiter are consumed as discard, and the call continues
from the clean state on the suffix. -/
theorem decode_scan_overflow {max rh : Nat} {a : List Byte} (d : List Byte) (ha : 0 ∉ a)
    (hrh : rh ≤ a.length) (hmax : max < a.length) :
    decode ⟨max, rh, false⟩ (a ++ 0 :: d) =
      (decode ⟨max, 0, false⟩ d).map (DecRes.prepend [Ev.discard (a ++ [0])] 1) := by
  have hnd : 0 ∉ a.drop rh := fun h => ha (List.mem_of_mem_drop h)
  have hlen : (a ++ 0 :: d).length = a.length + 1 + d.length := by
    simp
    omega
  have htake : (a ++ 0 :: d).take (a.length + 1) = a ++ [0] := by
    rw [List.append_cons]
    exact List.take_left' (by simp)
  have hdrop : (a ++ 0 :: d).drop (a.length + 1) = d := by
    rw [List.append_cons]
    exact List.drop_left' (by simp)
  rw [decode_unfold]
  rw [if_neg (by simp only [hlen]; omega)]
  rw [List.drop_append_of_le_length hrh, findNul_append _ hnd d]
  simp only [List.length_drop, if_neg Bool.false_ne_true]
  rw [Nat.sub_add_cancel hrh]
  rw [if_pos (by omega : a.length > max)]
  rw [decode_unfold]
  rw [if_neg (by simp only [hlen]; omega)]
  rw [List.drop_append_of_le_length hrh, findNul_append _ hnd d]
  simp only [List.length_drop, eq_self_iff_true, if_true]
  rw [Nat.sub_add_cancel hrh]
  rw [htake, hdrop, Option.map_map]
  congr 1
  funext r
  simp [Function.comp, prepend_prepend]

/-- Scanning, no delimiter, still within bounds: the read head advances and
nothing is consumed or emitted. -/
theorem decode_scan_pending {max rh : Nat} {src : List Byte} (h0 : 0 ∉ src)
    (hrh : rh ≤ src.length) (hmax : src.length ≤ max) :
    decode ⟨max, rh, false⟩ src =
      some ⟨⟨max, min (satAdd max 1) src.length, false⟩, src, [], none, 0⟩ := by
  rw [decode_unfold]
  rw [if_neg (by omega)]
  rw [findNul_eq_none (fun h => h0 (List.mem_of_mem_drop h))]
  simp only [if_neg Bool.false_ne_true]
  rw [if_neg (by omega : ¬src.length > max)]

/-- Discarding with no delimiter in the buffer: everything is consumed as
discard chunks, nothing reaches `receive`, and the state stays discarding. -/
theorem decode_discard_nonul_aux (n : Nat) : ∀ (max rh : Nat) (src : List Byte),
    src.length ≤ n → 0 ∉ src → rh ≤ src.length →
    ∃ evs, (∀ e ∈ evs, ∃ bs, e = Ev.discard bs) ∧ consumedBytes evs = src ∧
      decode ⟨max, rh, true⟩ src = some ⟨⟨max, 0, true⟩, [], evs, none, 0⟩ := by
  induction n with
  | zero =>
    intro max rh src hn h0 hrh
    have hsrc : src = [] := List.length_eq_zero.mp (by omega)
    subst hsrc
    have hrh0 : rh = 0 := by
      simpa using hrh
    subst hrh0
    refine ⟨[Ev.discard []], by simp, by simp [consumedBytes, Ev.consumed], ?_⟩
    rw [decode_unfold]
    simp [findNul]
  | succ n ih =>
    intro max rh src hn h0 hrh
    have hU := one_le_usizeMax
    have h1 : 1 ≤ satAdd max 1 := by simp only [satAdd]; omega
    rw [decode_unfold]
    rw [if_neg (by omega)]
    rw [findNul_eq_none (fun h => h0 (List.mem_of_mem_drop h))]
    simp only [eq_self_iff_true, if_true]
    by_cases hemp : (src.drop (min (satAdd max 1) src.length)).isEmpty = true
    · have hdeq : src.drop (min (satAdd max 1) src.length) = [] :=
        List.isEmpty_iff.mp hemp
      have hge : src.length ≤ min (satAdd max 1) src.length :=
        List.drop_eq_nil_iff.mp hdeq
      refine ⟨[Ev.discard (src.take (min (satAdd max 1) src.length))], by simp, ?_, ?_⟩
      · simp [consumedBytes, Ev.consumed, List.take_of_length_le hge]
      · rw [if_pos hemp, hdeq]
    · simp only [if_neg hemp]
      have hne : src.drop (min (satAdd max 1) src.length) ≠ [] := by
        intro hnil
        exact hemp (by simp [hnil])
      have hlt : min (satAdd max 1) src.length < src.length := by
        by_contra hc
        exact hne (List.drop_eq_nil_iff.mpr (by omega))
      obtain ⟨evs, hdisc, hcons, heq⟩ :=
        ih max 0 (src.drop (min (satAdd max 1) src.length))
          (by simp only [List.length_drop]; omega)
          (fun h => h0 (List.mem_of_mem_drop h))
          (by omega)
      refine ⟨Ev.discard (src.take (min (satAdd max 1) src.length)) :: evs, ?_, ?_, ?_⟩
      · intro e he
        rcases List.mem_cons.mp he with rfl | he
        · exact ⟨_, rfl⟩
        · exact hdisc e he
      · simp only [consumedBytes, List.map_cons, List.flatten_cons, Ev.consumed]
        rw [← consumedBytes, hcons, List.take_append_drop]
      · rw [heq]
        simp [DecRes.prepend]

theorem decode_discard_nonul {max rh : Nat} {src : List Byte} (h0 : 0 ∉ src)
    (hrh : rh ≤ src.length) :
    ∃ evs, (∀ e ∈ evs, ∃ bs, e = Ev.discard bs) ∧ consumedBytes evs = src ∧
      decode ⟨max, rh, true⟩ src = some ⟨⟨max, 0, true⟩, [], evs, none, 0⟩ :=
  decode_discard_nonul_aux src.length max rh src le_rfl h0 hrh

/-- Scanning, no delimiter, buffer over bounds: one overflow increment, the
whole buffer is consumed as discard chunks, and the state becomes discarding. -/
theorem decode_scan_overflow_nonul {max rh : Nat} {src : List Byte} (h0 : 0 ∉ src)
    (hrh : rh ≤ src.length) (hmax : max < src.length) :
    ∃ evs, (∀ e ∈ evs, ∃ bs, e = Ev.discard bs) ∧ consumedBytes evs = src ∧
      decode ⟨max, rh, false⟩ src = some ⟨⟨max, 0, true⟩, [], evs, none, 1⟩ := by
  obtain ⟨evs, hdisc, hcons, heq⟩ := @decode_discard_nonul max rh src h0 hrh
  refine ⟨evs, hdisc, hcons, ?_⟩
  rw [decode_unfold]
  rw [if_neg (by omega)]
  rw [findNul_eq_none (fun h => h0 (List.mem_of_mem_drop h))]
  simp only [if_neg Bool.false_ne_true]
  rw [if_pos (by omega : src.length > max)]
  rw [heq]
  simp [DecRes.prepend]

/-- Discarding with a delimiter in the buffer: everything up to and including
the delimiter is consumed as discard, and the call continues from the clean
state on the suffix. -/
theorem decode_discard_resync {max rh : Nat} {a : List Byte} (d : List Byte) (ha : 0 ∉ a)
    (hrh : rh ≤ a.length) :
    decode ⟨max, rh, true⟩ (a ++ 0 :: d) =
      (decode ⟨max, 0, false⟩ d).map (DecRes.prepend [Ev.discard (a ++ [0])] 0) := by
  have hnd : 0 ∉ a.drop rh := fun h => ha (List.mem_of_mem_drop h)
  have hlen : (a ++ 0 :: d).length = a.length + 1 + d.length := by
    simp
    omega
  have htake : (a ++ 0 :: d).take (a.length + 1) = a ++ [0] := by
    rw [List.append_cons]
    exact List.take_left' (by simp)
  have hdrop : (a ++ 0 :: d).drop (a.length + 1) = d := by
    rw [List.append_cons]
    exact List.drop_left' (by simp)
  rw [decode_unfold]
  rw [if_neg (by simp only [hlen]; omega)]
  rw [List.drop_append_of_le_length hrh, findNul_append _ hnd d]
  simp only [List.length_drop, eq_self_iff_true, if_true]
  rw [Nat.sub_add_cancel hrh]
  rw [htake, hdrop]

/-! ## Invariants of `decode`, by induction on fuel -/

theorem decodeF_state : ∀ (fuel : Nat) (st : DecodeSt) (src : List Byte) (r : DecRes),
    decodeF fuel st src = some r →
    r.st.max_size_bytes = st.max_size_bytes ∧
    (r.frame.isSome → r.st = ⟨st.max_size_bytes, 0, false⟩) := by
  intro fuel
  induction fuel with
  | zero => intro st src r h; simp [decodeF] at h
  | succ fuel ih =>
    intro st src r h
    obtain ⟨max, rh, disc⟩ := st
    simp only [decodeF] at h
    split at h
    · exact absurd h (by simp)
    · split at h
      · split at h
        · rcases Option.map_eq_some'.mp h with ⟨r₀, h₀, rfl⟩
          simpa [DecRes.prepend] using ih _ _ _ h₀
        · split at h
          · rcases Option.map_eq_some'.mp h with ⟨r₀, h₀, rfl⟩
            simpa [DecRes.prepend] using ih _ _ _ h₀
          · cases h
            simp
      · split at h
        · split at h
          · cases h
            simp
          · rcases Option.map_eq_some'.mp h with ⟨r₀, h₀, rfl⟩
            simpa [DecRes.prepend] using ih _ _ _ h₀
        · split at h
          · rcases Option.map_eq_some'.mp h with ⟨r₀, h₀, rfl⟩
            simpa [DecRes.prepend] using ih _ _ _ h₀
          · cases h
            simp

theorem decodeF_frame_le : ∀ (fuel : Nat) (st : DecodeSt) (src : List Byte) (r : DecRes),
    decodeF fuel st src = some r →
    (∀ f, r.frame = some f → f.length ≤ st.max_size_bytes) ∧
    (∀ f, Ev.frame f ∈ r.events → f.length ≤ st.max_size_bytes) := by
  intro fuel
  induction fuel with
  | zero => intro st src r h; simp [decodeF] at h
  | succ fuel ih =>
    intro st src r h
    obtain ⟨max, rh, disc⟩ := st
    simp only [decodeF] at h
    split at h
    · exact absurd h (by simp)
    · split at h
      · split at h
        · rcases Option.map_eq_some'.mp h with ⟨r₀, h₀, rfl⟩
          obtain ⟨ih1, ih2⟩ := ih _ _ _ h₀
          refine ⟨fun f hf => ih1 f hf, fun f hf => ?_⟩
          simp only [DecRes.prepend, List.mem_append, List.mem_singleton] at hf
          rcases hf with hf | hf
          · cases hf
          · exact ih2 f hf
        · next hov =>
          split at h
          · rcases Option.map_eq_some'.mp h with ⟨r₀, h₀, rfl⟩
            obtain ⟨ih1, ih2⟩ := ih _ _ _ h₀
            refine ⟨fun f hf => ih1 f hf, fun f hf => ?_⟩
            simp only [DecRes.prepend, List.nil_append] at hf
            exact ih2 f hf
          · next hov2 =>
            cases h
            constructor
            · intro f hf
              cases hf
              simp only [List.length_take]
              omega
            · intro f hf
              simp only [List.mem_singleton] at hf
              cases hf
              simp only [List.length_take]
              omega
      · split at h
        · split at h
          · cases h
            exact ⟨fun f hf => (nomatch hf), fun f hf => (nomatch hf)⟩
          · rcases Option.map_eq_some'.mp h with ⟨r₀, h₀, rfl⟩
            obtain ⟨ih1, ih2⟩ := ih _ _ _ h₀
            refine ⟨fun f hf => ih1 f hf, fun f hf => ?_⟩
            simp only [DecRes.prepend, List.mem_append, List.mem_singleton] at hf
            rcases hf with hf | hf
            · cases hf
            · exact ih2 f hf
        · split at h
          · rcases Option.map_eq_some'.mp h with ⟨r₀, h₀, rfl⟩
            obtain ⟨ih1, ih2⟩ := ih _ _ _ h₀
            refine ⟨fun f hf => ih1 f hf, fun f hf => ?_⟩
            simp only [DecRes.prepend, List.nil_append] at hf
            exact ih2 f hf
          · cases h
            exact ⟨fun f hf => (nomatch hf), fun f hf => (nomatch hf)⟩

theorem decodeF_consumed : ∀ (fuel : Nat) (st : DecodeSt) (src : List Byte) (r : DecRes),
    decodeF fuel st src = some r → consumedBytes r.events ++ r.buf = src := by
  intro fuel
  induction fuel with
  | zero => intro st src r h; simp [decodeF] at h
  | succ fuel ih =>
    intro st src r h
    obtain ⟨max, rh, disc⟩ := st
    simp only [decodeF] at h
    split at h
    · exact absurd h (by simp)
    · split at h
      · next offset heq =>
        split at h
        · rcases Option.map_eq_some'.mp h with ⟨r₀, h₀, rfl⟩
          have ihc := ih _ _ _ h₀
          simp only [DecRes.prepend, consumedBytes, List.singleton_append, List.map_cons,
            List.flatten_cons, Ev.consumed, List.append_assoc]
          rw [← consumedBytes, ihc, List.take_append_drop]
        · split at h
          · rcases Option.map_eq_some'.mp h with ⟨r₀, h₀, rfl⟩
            have ihc := ih _ _ _ h₀
            simpa [DecRes.prepend, consumedBytes] using ihc
          · cases h
            have hdd : src.drop (offset + rh) = 0 :: src.drop (offset + rh + 1) := by
              have h1 := findNul_drop heq
              rw [List.drop_drop, List.drop_drop] at h1
              rw [show rh + offset = offset + rh from by omega,
                show rh + (offset + 1) = offset + rh + 1 from by omega] at h1
              exact h1
            simp only [consumedBytes, List.map_cons, List.map_nil, List.flatten_cons,
              List.flatten_nil, Ev.consumed, List.append_nil, List.append_assoc]
            rw [show ([0] : List Byte) ++ src.drop (offset + rh + 1) =
              0 :: src.drop (offset + rh + 1) from rfl]
            rw [← hdd, List.take_append_drop]
      · split at h
        · split at h
          · cases h
            simp only [consumedBytes, List.map_cons, List.map_nil, List.flatten_cons,
              List.flatten_nil, Ev.consumed, List.append_nil]
            exact List.take_append_drop _ _
          · rcases Option.map_eq_some'.mp h with ⟨r₀, h₀, rfl⟩
            have ihc := ih _ _ _ h₀
            simp only [DecRes.prepend, consumedBytes, List.singleton_append, List.map_cons,
              List.flatten_cons, Ev.consumed, List.append_assoc]
            rw [← consumedBytes, ihc, List.take_append_drop]
        · split at h
          · rcases Option.map_eq_some'.mp h with ⟨r₀, h₀, rfl⟩
            have ihc := ih _ _ _ h₀
            simpa [DecRes.prepend, consumedBytes] using ihc
          · cases h
            simp [consumedBytes]

theorem decodeF_noframe : ∀ (fuel : Nat) (st : DecodeSt) (src : List Byte) (r : DecRes),
    decodeF fuel st src = some r → r.frame = none →
    (r.st.discarding = false ∧ r.buf.length ≤ st.max_size_bytes ∧
      r.st.read_head ≤ r.buf.length) ∨
    (r.st.discarding = true ∧ r.buf = [] ∧ r.st.read_head = 0) := by
  intro fuel
  induction fuel with
  | zero => intro st src r h; simp [decodeF] at h
  | succ fuel ih =>
    intro st src r h hnf
    obtain ⟨max, rh, disc⟩ := st
    simp only [decodeF] at h
    split at h
    · exact absurd h (by simp)
    · split at h
      · split at h
        · rcases Option.map_eq_some'.mp h with ⟨r₀, h₀, rfl⟩
          simp only [DecRes.prepend] at hnf ⊢
          exact ih _ _ _ h₀ hnf
        · split at h
          · rcases Option.map_eq_some'.mp h with ⟨r₀, h₀, rfl⟩
            simp only [DecRes.prepend] at hnf ⊢
            exact ih _ _ _ h₀ hnf
          · cases h
            simp at hnf
      · split at h
        · split at h
          · next hemp =>
            cases h
            right
            exact ⟨rfl, List.isEmpty_iff.mp hemp, rfl⟩
          · rcases Option.map_eq_some'.mp h with ⟨r₀, h₀, rfl⟩
            simp only [DecRes.prepend] at hnf ⊢
            exact ih _ _ _ h₀ hnf
        · split at h
          · rcases Option.map_eq_some'.mp h with ⟨r₀, h₀, rfl⟩
            simp only [DecRes.prepend] at hnf ⊢
            exact ih _ _ _ h₀ hnf
          · next hov =>
            cases h
            left
            exact ⟨rfl, (by omega : src.length ≤ max), min_le_right _ _⟩

theorem decodeF_frame_shrinks : ∀ (fuel : Nat) (st : DecodeSt) (src : List Byte) (r : DecRes),
    decodeF fuel st src = some r → r.frame.isSome → r.buf.length < src.length := by
  intro fuel
  induction fuel with
  | zero => intro st src r h; simp [decodeF] at h
  | succ fuel ih =>
    intro st src r h hf
    obtain ⟨max, rh, disc⟩ := st
    simp only [decodeF] at h
    split at h
    · exact absurd h (by simp)
    · split at h
      · next offset heq =>
        have hofs : offset < src.length - rh := by
          have h1 := findNul_some_lt heq
          rwa [List.length_drop] at h1
        split at h
        · rcases Option.map_eq_some'.mp h with ⟨r₀, h₀, rfl⟩
          have := ih _ _ _ h₀ hf
          simp only [DecRes.prepend] at hf this ⊢
          simp only [List.length_drop] at this
          omega
        · split at h
          · rcases Option.map_eq_some'.mp h with ⟨r₀, h₀, rfl⟩
            simp only [DecRes.prepend] at hf ⊢
            exact ih _ _ _ h₀ hf
          · cases h
            simp only [List.length_drop]
            omega
      · split at h
        · split at h
          · cases h
            simp at hf
          · next hemp =>
            rcases Option.map_eq_some'.mp h with ⟨r₀, h₀, rfl⟩
            have hlt := ih _ _ _ h₀ hf
            have hne : src.drop (min (satAdd max 1) src.length) ≠ [] := by
              intro hnil
              exact absurd (by simp [hnil]) hemp
            have h2 : min (satAdd max 1) src.length < src.length := by
              by_contra hc
              exact hne (List.drop_eq_nil_iff.mpr (by omega))
            simp only [DecRes.prepend] at hf hlt ⊢
            simp only [List.length_drop] at hlt
            omega
        · split at h
          · rcases Option.map_eq_some'.mp h with ⟨r₀, h₀, rfl⟩
            simp only [DecRes.prepend] at hf ⊢
            exact ih _ _ _ h₀ hf
          · cases h
            simp at hf

theorem decodeF_total : ∀ (fuel : Nat) (st : DecodeSt) (src : List Byte),
    st.read_head ≤ src.length → meas st src < fuel →
    ∃ r, decodeF fuel st src = some r ∧ r.st.read_head ≤ r.buf.length := by
  intro fuel
  induction fuel with
  | zero => intro st src _ hm; exact absurd hm (Nat.not_lt_zero _)
  | succ fuel ih =>
    intro st src hrh hm
    obtain ⟨max, rh, disc⟩ := st
    have hU := one_le_usizeMax
    simp only [decodeF]
    rw [if_neg (by exact Nat.not_lt.mpr hrh)]
    cases hfn : findNul (src.drop rh) with
    | some offset =>
      have hofs : offset < src.length - rh := by
        have h1 := findNul_some_lt hfn
        rwa [List.length_drop] at h1
      cases disc with
      | true =>
        have hm2 : 2 * src.length < fuel + 1 := by simpa [meas] using hm
        simp only [eq_self_iff_true, if_true]
        obtain ⟨r₀, h₀, hr₀⟩ := ih ⟨max, 0, false⟩ (src.drop (offset + rh + 1))
          (by simp) (by simp [meas, List.length_drop]; omega)
        refine ⟨_, by rw [h₀]; rfl, ?_⟩
        simpa [DecRes.prepend] using hr₀
      | false =>
        have hm2 : 2 * src.length + 1 < fuel + 1 := by simpa [meas] using hm
        simp only [if_neg Bool.false_ne_true]
        by_cases hov : offset + rh > max
        · rw [if_pos hov]
          obtain ⟨r₀, h₀, hr₀⟩ := ih ⟨max, rh, true⟩ src
            (by exact hrh) (by simp [meas]; omega)
          refine ⟨_, by rw [h₀]; rfl, ?_⟩
          simpa [DecRes.prepend] using hr₀
        · rw [if_neg hov]
          exact ⟨_, rfl, by simp⟩
    | none =>
      cases disc with
      | true =>
        have hm2 : 2 * src.length < fuel + 1 := by simpa [meas] using hm
        simp only [eq_self_iff_true, if_true]
        by_cases hemp : (src.drop (min (satAdd max 1) src.length)).isEmpty = true
        · rw [if_pos hemp]
          exact ⟨_, rfl, by simp⟩
        · rw [if_neg hemp]
          have hne : src.drop (min (satAdd max 1) src.length) ≠ [] := by
            intro hnil
            exact hemp (by simp [hnil])
          have hlt : min (satAdd max 1) src.length < src.length := by
            by_contra hc
            exact hne (List.drop_eq_nil_iff.mpr (by omega))
          have hpos : 1 ≤ satAdd max 1 := by simp only [satAdd]; omega
          obtain ⟨r₀, h₀, hr₀⟩ := ih ⟨max, 0, true⟩ (src.drop (min (satAdd max 1) src.length))
            (by simp) (by simp [meas, List.length_drop]; omega)
          refine ⟨_, by rw [h₀]; rfl, ?_⟩
          simpa [DecRes.prepend] using hr₀
      | false =>
        have hm2 : 2 * src.length + 1 < fuel + 1 := by simpa [meas] using hm
        simp only [if_neg Bool.false_ne_true]
        by_cases hov : src.length > max
        · rw [if_pos hov]
          obtain ⟨r₀, h₀, hr₀⟩ := ih ⟨max, rh, true⟩ src
            (by exact hrh) (by simp [meas]; omega)
          refine ⟨_, by rw [h₀]; rfl, ?_⟩
          simpa [DecRes.prepend] using hr₀
        · rw [if_neg hov]
          exact ⟨_, rfl, min_le_right _ _⟩

theorem meas_lt (st : DecodeSt) (src : List Byte) : meas st src < 2 * src.length + 2 := by
  simp only [meas]
  split <;> omega

theorem decode_state {st : DecodeSt} {src : List Byte} {r : DecRes}
    (h : decode st src = some r) :
    r.st.max_size_bytes = st.max_size_bytes ∧
    (r.frame.isSome → r.st = ⟨st.max_size_bytes, 0, false⟩) :=
  decodeF_state _ _ _ _ h

theorem decode_frame_le {st : DecodeSt} {src : List Byte} {r : DecRes}
    (h : decode st src = some r) :
    (∀ f, r.frame = some f → f.length ≤ st.max_size_bytes) ∧
    (∀ f, Ev.frame f ∈ r.events → f.length ≤ st.max_size_bytes) :=
  decodeF_frame_le _ _ _ _ h

theorem decode_consumed {st : DecodeSt} {src : List Byte} {r : DecRes}
    (h : decode st src = some r) : consumedBytes r.events ++ r.buf = src :=
  decodeF_consumed _ _ _ _ h

theorem decode_noframe {st : DecodeSt} {src : List Byte} {r : DecRes}
    (h : decode st src = some r) (hnf : r.frame = none) :
    (r.st.discarding = false ∧ r.buf.length ≤ st.max_size_bytes ∧
      r.st.read_head ≤ r.buf.length) ∨
    (r.st.discarding = true ∧ r.buf = [] ∧ r.st.read_head = 0) :=
  decodeF_noframe _ _ _ _ h hnf

theorem decode_frame_shrinks {st : DecodeSt} {src : List Byte} {r : DecRes}
    (h : decode st src = some r) (hf : r.frame.isSome) : r.buf.length < src.length :=
  decodeF_frame_shrinks _ _ _ _ h hf

theorem decode_total {st : DecodeSt} {src : List Byte} (hrh : st.read_head ≤ src.length) :
    ∃ r, decode st src = some r ∧ r.st.read_head ≤ r.buf.length :=
  decodeF_total _ _ _ hrh (meas_lt st src)

/-! ## The read loop `drain` -/

theorem drainF_mono : ∀ (f g : Nat) (st : DecodeSt) (src : List Byte),
    src.length < f → f ≤ g → drainF f st src = drainF g st src := by
  intro f
  induction f with
  | zero => intro g st src hm _; exact absurd hm (Nat.not_lt_zero _)
  | succ f ih =>
    intro g st src hm hle
    obtain ⟨g, rfl⟩ : ∃ g', g = g' + 1 := ⟨g - 1, by omega⟩
    simp only [drainF]
    cases hd : decode st src with
    | none => rfl
    | some r =>
      simp only
      cases hf : r.frame with
      | none => rfl
      | some x =>
        have hlt : r.buf.length < src.length :=
          decode_frame_shrinks hd (by simp [hf])
        rw [ih g r.st r.buf (by omega) (by omega)]

theorem drain_stop {st : DecodeSt} {src : List Byte} {r : DecRes}
    (h : decode st src = some r) (hnf : r.frame = none) :
    drain st src = some ⟨r.st, r.buf, r.events, r.overflow⟩ := by
  unfold drain
  simp only [drainF, h, hnf]

theorem drain_cont {st : DecodeSt} {src : List Byte} {r : DecRes}
    (h : decode st src = some r) (hf : r.frame.isSome) :
    drain st src = (drain r.st r.buf).map fun d =>
      ⟨d.st, d.buf, r.events ++ d.events, r.overflow + d.overflow⟩ := by
  have hlt : r.buf.length < src.length := decode_frame_shrinks h hf
  obtain ⟨x, hx⟩ := Option.isSome_iff_exists.mp hf
  conv_lhs => rw [drain]
  simp only [drainF, h, hx]
  rw [← drainF_mono (r.buf.length + 1) src.length r.st r.buf (by omega) (by omega)]
  rfl

theorem drainF_consumed : ∀ (fuel : Nat) (st : DecodeSt) (src : List Byte) (d : DrainRes),
    drainF fuel st src = some d → consumedBytes d.events ++ d.buf = src := by
  intro fuel
  induction fuel with
  | zero => intro st src d h; simp [drainF] at h
  | succ fuel ih =>
    intro st src d h
    simp only [drainF] at h
    split at h
    · exact absurd h (by simp)
    · next r hr =>
      split at h
      · cases h
        exact decode_consumed hr
      · rcases Option.map_eq_some'.mp h with ⟨d₀, h₀, rfl⟩
        have ihc := ih _ _ _ h₀
        have hc := decode_consumed hr
        simp only [consumedBytes, List.map_append, List.flatten_append, List.append_assoc]
        rw [← consumedBytes, ← consumedBytes, ihc, hc]

theorem drainF_frames_le : ∀ (fuel : Nat) (st : DecodeSt) (src : List Byte) (d : DrainRes),
    drainF fuel st src = some d →
    ∀ f, Ev.frame f ∈ d.events → f.length ≤ st.max_size_bytes := by
  intro fuel
  induction fuel with
  | zero => intro st src d h; simp [drainF] at h
  | succ fuel ih =>
    intro st src d h
    simp only [drainF] at h
    split at h
    · exact absurd h (by simp)
    · next r hr =>
      split at h
      · cases h
        exact (decode_frame_le hr).2
      · rcases Option.map_eq_some'.mp h with ⟨d₀, h₀, rfl⟩
        intro f hf
        simp only [List.mem_append] at hf
        rcases hf with hf | hf
        · exact (decode_frame_le hr).2 f hf
        · have hmax := (decode_state hr).1
          have := ih _ _ _ h₀ f hf
          omega

theorem drainF_state : ∀ (fuel : Nat) (st : DecodeSt) (src : List Byte) (d : DrainRes),
    drainF fuel st src = some d → d.st.max_size_bytes = st.max_size_bytes := by
  intro fuel
  induction fuel with
  | zero => intro st src d h; simp [drainF] at h
  | succ fuel ih =>
    intro st src d h
    simp only [drainF] at h
    split at h
    · exact absurd h (by simp)
    · next r hr =>
      split at h
      · cases h
        exact (decode_state hr).1
      · rcases Option.map_eq_some'.mp h with ⟨d₀, h₀, rfl⟩
        have h1 := ih _ _ _ h₀
        have h2 := (decode_state hr).1
        simp only
        omega

theorem drainF_total : ∀ (fuel : Nat) (st : DecodeSt) (src : List Byte),
    st.read_head ≤ src.length → src.length < fuel →
    ∃ d, drainF fuel st src = some d ∧ d.st.read_head ≤ d.buf.length := by
  intro fuel
  induction fuel with
  | zero => intro st src _ hm; exact absurd hm (Nat.not_lt_zero _)
  | succ fuel ih =>
    intro st src hrh hm
    obtain ⟨r, hr, hrr⟩ := decode_total hrh
    simp only [drainF, hr]
    cases hf : r.frame with
    | none => exact ⟨_, rfl, hrr⟩
    | some x =>
      have hlt : r.buf.length < src.length := decode_frame_shrinks hr (by simp [hf])
      have hclean := (decode_state hr).2 (by simp [hf])
      obtain ⟨d₀, h₀, hd₀⟩ := ih r.st r.buf (by rw [hclean]; exact Nat.zero_le _) (by omega)
      rw [h₀]
      exact ⟨_, rfl, hd₀⟩

theorem drain_total {st : DecodeSt} {src : List Byte} (hrh : st.read_head ≤ src.length) :
    ∃ d, drain st src = some d ∧ d.st.read_head ≤ d.buf.length :=
  drainF_total _ _ _ hrh (by omega)

theorem drain_consumed {st : DecodeSt} {src : List Byte} {d : DrainRes}
    (h : drain st src = some d) : consumedBytes d.events ++ d.buf = src :=
  drainF_consumed _ _ _ _ h

theorem drain_frames_le {st : DecodeSt} {src : List Byte} {d : DrainRes}
    (h : drain st src = some d) :
    ∀ f, Ev.frame f ∈ d.events → f.length ≤ st.max_size_bytes :=
  drainF_frames_le _ _ _ _ h

theorem drain_state {st : DecodeSt} {src : List Byte} {d : DrainRes}
    (h : drain st src = some d) : d.st.max_size_bytes = st.max_size_bytes :=
  drainF_state _ _ _ _ h

/-! ## The chunked run `runChunks` -/

theorem consumedBytes_append (e₁ e₂ : List Ev) :
    consumedBytes (e₁ ++ e₂) = consumedBytes e₁ ++ consumedBytes e₂ := by
  simp [consumedBytes]

theorem framesOf_append (e₁ e₂ : List Ev) :
    framesOf (e₁ ++ e₂) = framesOf e₁ ++ framesOf e₂ := by
  simp [framesOf]

theorem framesOf_discard {evs : List Ev} (h : ∀ e ∈ evs, ∃ bs, e = Ev.discard bs) :
    framesOf evs = [] := by
  induction evs with
  | nil => rfl
  | cons e es ih =>
    obtain ⟨bs, rfl⟩ := h e (by simp)
    simp only [framesOf, List.filterMap_cons]
    exact ih (fun e he => h e (by simp [he]))

theorem runChunks_consumed : ∀ (cs : List (List Byte)) (st : DecodeSt) (buf : List Byte)
    (R : DrainRes), runChunks cs st buf = some R →
    consumedBytes R.events ++ R.buf = buf ++ cs.flatten := by
  intro cs
  induction cs with
  | nil =>
    intro st buf R h
    cases h
    simp [consumedBytes]
  | cons c cs ih =>
    intro st buf R h
    simp only [runChunks] at h
    split at h
    · exact absurd h (by simp)
    · next d hd =>
      rcases Option.map_eq_some'.mp h with ⟨r, hr, rfl⟩
      have h1 := drain_consumed hd
      have h2 := ih _ _ _ hr
      simp only [consumedBytes_append, List.append_assoc, List.flatten_cons]
      rw [h2]
      rw [← List.append_assoc (consumedBytes d.events) d.buf, h1]
      simp [List.append_assoc]

theorem runChunks_state : ∀ (cs : List (List Byte)) (st : DecodeSt) (buf : List Byte)
    (R : DrainRes), runChunks cs st buf = some R →
    R.st.max_size_bytes = st.max_size_bytes := by
  intro cs
  induction cs with
  | nil =>
    intro st buf R h
    cases h
    rfl
  | cons c cs ih =>
    intro st buf R h
    simp only [runChunks] at h
    split at h
    · exact absurd h (by simp)
    · next d hd =>
      rcases Option.map_eq_some'.mp h with ⟨r, hr, rfl⟩
      have h1 := drain_state hd
      have h2 := ih _ _ _ hr
      simp only
      omega

theorem runChunks_frames_le : ∀ (cs : List (List Byte)) (st : DecodeSt) (buf : List Byte)
    (R : DrainRes), runChunks cs st buf = some R →
    ∀ f, Ev.frame f ∈ R.events → f.length ≤ st.max_size_bytes := by
  intro cs
  induction cs with
  | nil =>
    intro st buf R h f hf
    cases h
    exact absurd hf (by simp)
  | cons c cs ih =>
    intro st buf R h f hf
    simp only [runChunks] at h
    split at h
    · exact absurd h (by simp)
    · next d hd =>
      rcases Option.map_eq_some'.mp h with ⟨r, hr, rfl⟩
      simp only [List.mem_append] at hf
      rcases hf with hf | hf
      · exact drain_frames_le hd f hf
      · have h1 := drain_state hd
        have h2 := ih _ _ _ hr f hf
        omega

theorem runChunks_total : ∀ (cs : List (List Byte)) (st : DecodeSt) (buf : List Byte),
    st.read_head ≤ buf.length →
    ∃ R, runChunks cs st buf = some R ∧ R.st.read_head ≤ R.buf.length := by
  intro cs
  induction cs with
  | nil =>
    intro st buf hrh
    exact ⟨⟨st, buf, [], 0⟩, rfl, hrh⟩
  | cons c cs ih =>
    intro st buf hrh
    obtain ⟨d, hd, hdinv⟩ := drain_total
      (show st.read_head ≤ (buf ++ c).length by simp [List.length_append]; omega)
    obtain ⟨R, hR, hRinv⟩ := ih d.st d.buf hdinv
    refine ⟨⟨R.st, R.buf, d.events ++ R.events, d.overflow + R.overflow⟩, ?_, hRinv⟩
    simp only [runChunks, hd, hR]
    rfl

/-! ## Facts about the spec-side record machine -/

theorem specByte_scan_z (max : Nat) (p : List Byte) :
    specByte max ⟨false, p⟩ 0 = (⟨false, []⟩, some p, 0) := by
  simp [specByte]

theorem specByte_discard_z (max : Nat) (p : List Byte) :
    specByte max ⟨true, p⟩ 0 = (⟨false, []⟩, none, 0) := by
  simp [specByte]

theorem specRun_discard_nonul (max : Nat) : ∀ (c : List Byte), 0 ∉ c →
    specRun max ⟨true, []⟩ c = (⟨true, []⟩, [], 0) := by
  intro c
  induction c with
  | nil => intro _; rfl
  | cons b bs ih =>
    intro h
    simp only [List.mem_cons, not_or] at h
    have hb : specByte max ⟨true, []⟩ b = (⟨true, []⟩, none, 0) := by
      simp only [specByte, eq_self_iff_true, if_true]
      rw [if_neg (fun hz => h.1 hz.symm)]
    simp only [specRun, hb, ih h.2]
    rfl

theorem specRun_scan_nonul_small (max : Nat) : ∀ (c p : List Byte), 0 ∉ c →
    p.length + c.length ≤ max →
    specRun max ⟨false, p⟩ c = (⟨false, p ++ c⟩, [], 0) := by
  intro c
  induction c with
  | nil => intro p _ _; simp [specRun]
  | cons b bs ih =>
    intro p hc hlen
    simp only [List.mem_cons, not_or] at hc
    simp only [List.length_cons] at hlen
    have hb : specByte max ⟨false, p⟩ b = (⟨false, p ++ [b]⟩, none, 0) := by
      simp only [specByte, if_neg Bool.false_ne_true]
      rw [if_neg (fun hz => hc.1 hz.symm), if_neg (by simp only [not_lt]; omega)]
    simp only [specRun, hb]
    rw [ih (p ++ [b]) hc.2 (by simp only [List.length_append, List.length_singleton]; omega)]
    simp [List.append_assoc]

theorem specRun_scan_nonul_big (max : Nat) : ∀ (c p : List Byte), 0 ∉ c →
    p.length ≤ max → max < p.length + c.length →
    specRun max ⟨false, p⟩ c = (⟨true, []⟩, [], 1) := by
  intro c
  induction c with
  | nil =>
    intro p _ hmax hbig
    simp only [List.length_nil, Nat.add_zero] at hbig
    omega
  | cons b bs ih =>
    intro p hc hmax hbig
    simp only [List.mem_cons, not_or] at hc
    simp only [List.length_cons] at hbig
    by_cases hov : max < p.length + 1
    · have hb : specByte max ⟨false, p⟩ b = (⟨true, []⟩, none, 1) := by
        simp only [specByte, if_neg Bool.false_ne_true]
        rw [if_neg (fun hz => hc.1 hz.symm), if_pos (by omega)]
      simp only [specRun, hb, specRun_discard_nonul max bs hc.2]
      rfl
    · have hb : specByte max ⟨false, p⟩ b = (⟨false, p ++ [b]⟩, none, 0) := by
        simp only [specByte, if_neg Bool.false_ne_true]
        rw [if_neg (fun hz => hc.1 hz.symm), if_neg (by simp only [not_lt]; omega)]
      simp only [specRun, hb]
      rw [ih (p ++ [b]) hc.2 (by simp only [List.length_append, List.length_singleton]; omega)
        (by simp only [List.length_append, List.length_singleton]; omega)]
      rfl

/-! ## The simulation between the framer and the spec-side record machine -/

theorem drain_of_decode_prepend {st st₂ : DecodeSt} {src src₂ : List Byte}
    {evs : List Ev} {n : Nat}
    (h : decode st src = (decode st₂ src₂).map (DecRes.prepend evs n)) :
    drain st src = (drain st₂ src₂).map fun d =>
      ⟨d.st, d.buf, evs ++ d.events, n + d.overflow⟩ := by
  cases h₂ : decode st₂ src₂ with
  | none =>
    rw [h₂] at h
    simp only [Option.map_none'] at h
    have hL : drain st src = none := by
      unfold drain
      simp only [drainF, h]
    have hR : drain st₂ src₂ = none := by
      unfold drain
      simp only [drainF, h₂]
    rw [hL, hR]
    rfl
  | some r₂ =>
    rw [h₂] at h
    simp only [Option.map_some'] at h
    cases hf : r₂.frame with
    | none =>
      have hstop := drain_stop h (by simp [DecRes.prepend, hf])
      have hstop₂ := drain_stop h₂ hf
      rw [hstop, hstop₂]
      simp [DecRes.prepend]
    | some x =>
      have hc := drain_cont h (by simp [DecRes.prepend, hf])
      have hc₂ := drain_cont h₂ (by simp [hf])
      rw [hc, hc₂]
      simp only [DecRes.prepend, Option.map_map]
      congr 1
      funext d
      simp [Function.comp, List.append_assoc, Nat.add_assoc]

theorem exists_nul_split (c : List Byte) :
    0 ∉ c ∨ ∃ a rest, c = a ++ 0 :: rest ∧ 0 ∉ a := by
  induction c with
  | nil => left; simp
  | cons b bs ih =>
    by_cases hb : b = 0
    · subst hb
      right
      exact ⟨[], bs, rfl, by simp⟩
    · rcases ih with h | ⟨a, rest, rfl, ha⟩
      · left
        intro hm
        rcases List.mem_cons.mp hm with h0 | h0
        · exact hb h0.symm
        · exact h h0
      · right
        refine ⟨b :: a, rest, by simp, ?_⟩
        intro hm
        rcases List.mem_cons.mp hm with h0 | h0
        · exact hb h0.symm
        · exact ha h0

theorem matches_init (max : Nat) : Matches (DecodeSt.init max) [] max SpecSt.init := by
  refine ⟨rfl, Or.inr ?_⟩
  simp [SpecSt.init, DecodeSt.init]

theorem specRun_append (max : Nat) (s : SpecSt) (xs ys : List Byte) :
    specRun max s (xs ++ ys) =
      ((specRun max (specRun max s xs).1 ys).1,
       (specRun max s xs).2.1 ++ (specRun max (specRun max s xs).1 ys).2.1,
       (specRun max s xs).2.2 + (specRun max (specRun max s xs).1 ys).2.2) := by
  induction xs generalizing s with
  | nil => simp [specRun]
  | cons b bs ih =>
    simp only [List.cons_append, specRun, List.append_eq]
    rw [ih]
    simp [List.append_assoc, Nat.add_assoc]

/-- The central refinement: from any pair of corresponding states, feeding a
chunk `c` to the framer's read loop produces exactly the frames and overflow
increments that the spec-side record machine produces on `c`, and the states
correspond again. -/
theorem drain_sim (max : Nat) : ∀ (n : Nat) (c : List Byte), c.length ≤ n →
    ∀ (st : DecodeSt) (buf : List Byte) (s : SpecSt), Matches st buf max s →
    ∃ d, drain st (buf ++ c) = some d ∧
      Matches d.st d.buf max (specRun max s c).1 ∧
      framesOf d.events = (specRun max s c).2.1 ∧
      d.overflow = (specRun max s c).2.2 := by
  intro n
  induction n with
  | zero =>
    intro c hc st buf s hm
    have hc0 : c = [] := List.length_eq_zero.mp (by omega)
    subst hc0
    obtain ⟨hmax, hcase⟩ := hm
    obtain ⟨smax, srh, sdisc⟩ := st
    obtain ⟨sd, sp⟩ := s
    simp only at hmax
    subst smax
    rcases hcase with ⟨hs, hd, hbuf, hp, hrh⟩ | ⟨hs, hd, hbuf, h0, hlen, hrh⟩
    · simp only at hs hd hbuf hp hrh
      subst hs hd hbuf hp hrh
      obtain ⟨evs, hdisc, hcons, heq⟩ := @decode_discard_nonul max 0 [] (by simp) (by simp)
      refine ⟨_, by rw [List.append_nil]; exact drain_stop heq rfl, ?_, ?_, ?_⟩
      · exact ⟨rfl, Or.inl ⟨rfl, rfl, rfl, rfl, rfl⟩⟩
      · exact framesOf_discard hdisc
      · rfl
    · simp only at hs hd hbuf h0 hlen hrh
      subst hs hd hbuf
      have heq := @decode_scan_pending max srh buf h0 hrh hlen
      refine ⟨_, by rw [List.append_nil]; exact drain_stop heq rfl, ?_, ?_, ?_⟩
      · exact ⟨rfl, Or.inr ⟨rfl, rfl, rfl, h0, hlen, min_le_right _ _⟩⟩
      · rfl
      · rfl
  | succ n ih =>
    intro c hc st buf s hm
    obtain ⟨hmax, hcase⟩ := hm
    obtain ⟨smax, srh, sdisc⟩ := st
    obtain ⟨sd, sp⟩ := s
    simp only at hmax
    subst smax
    rcases hcase with ⟨hs, hd, hbuf, hp, hrh⟩ | ⟨hs, hd, hbuf, h0, hlen, hrh⟩
    · -- discarding state: buf = [], read head 0
      simp only at hs hd hbuf hp hrh
      subst hs hd hbuf hp hrh
      rw [List.nil_append]
      rcases exists_nul_split c with hnc | ⟨a, rest, rfl, ha⟩
      · -- no delimiter: stay discarding
        obtain ⟨evs, hdisc, hcons, heq⟩ := @decode_discard_nonul max 0 c hnc (by simp)
        rw [specRun_discard_nonul max c hnc]
        refine ⟨_, drain_stop heq rfl, ?_, ?_, ?_⟩
        · exact ⟨rfl, Or.inl ⟨rfl, rfl, rfl, rfl, rfl⟩⟩
        · exact framesOf_discard hdisc
        · rfl
      · -- resync at the delimiter, then continue from clean states
        have heq := @decode_discard_resync max 0 a rest ha (by simp)
        have hdr := drain_of_decode_prepend heq
        obtain ⟨d₀, hd₀, hm₀, hfr₀, hov₀⟩ := ih rest
          (by simp only [List.length_append, List.length_cons] at hc; omega)
          (DecodeSt.init max) [] SpecSt.init (matches_init max)
        rw [List.nil_append] at hd₀
        simp only [DecodeSt.init, SpecSt.init] at hd₀ hm₀ hfr₀ hov₀
        have hspec : specRun max ⟨true, []⟩ (a ++ 0 :: rest) =
            ((specRun max ⟨false, []⟩ rest).1,
             (specRun max ⟨false, []⟩ rest).2.1,
             (specRun max ⟨false, []⟩ rest).2.2) := by
          rw [specRun_append, specRun_discard_nonul max a ha]
          simp [specRun, specByte_discard_z]
        rw [hspec]
        refine ⟨_, by rw [hdr, hd₀]; rfl, ?_, ?_, ?_⟩
        · exact hm₀
        · simp only [framesOf_append]
          simpa using hfr₀
        · simpa using hov₀
    · -- scanning state: buf = pending, delimiter-free, within bounds
      simp only at hs hd hbuf h0 hlen hrh
      subst hs hd hbuf
      rcases exists_nul_split c with hnc | ⟨a, rest, rfl, ha⟩
      · -- no delimiter in the new bytes
        have hB : 0 ∉ buf ++ c := by
          intro hmem
          rcases List.mem_append.mp hmem with hmem | hmem
          · exact h0 hmem
          · exact hnc hmem
        by_cases hbig : (buf ++ c).length ≤ max
        · have heq := @decode_scan_pending max srh (buf ++ c) hB
            (by simp only [List.length_append]; omega) hbig
          rw [specRun_scan_nonul_small max c buf hnc
            (by simp only [List.length_append] at hbig; omega)]
          refine ⟨_, drain_stop heq rfl, ?_, ?_, ?_⟩
          · exact ⟨rfl, Or.inr ⟨rfl, rfl, rfl, hB, hbig, min_le_right _ _⟩⟩
          · rfl
          · rfl
        · obtain ⟨evs, hdisc, hcons, heq⟩ := @decode_scan_overflow_nonul max srh
            (buf ++ c) hB (by simp only [List.length_append]; omega) (by omega)
          rw [specRun_scan_nonul_big max c buf hnc hlen
            (by simp only [List.length_append] at hbig; omega)]
          refine ⟨_, drain_stop heq rfl, ?_, ?_, ?_⟩
          · exact ⟨rfl, Or.inl ⟨rfl, rfl, rfl, rfl, rfl⟩⟩
          · exact framesOf_discard hdisc
          · rfl
      · -- a delimiter: the candidate record is `buf ++ a`
        have hA : 0 ∉ buf ++ a := by
          intro hmem
          rcases List.mem_append.mp hmem with hmem | hmem
          · exact h0 hmem
          · exact ha hmem
        have hshape : buf ++ (a ++ 0 :: rest) = (buf ++ a) ++ 0 :: rest := by
          simp [List.append_assoc]
        have hrest : rest.length ≤ n := by
          simp only [List.length_append, List.length_cons] at hc
          omega
        obtain ⟨d₀, hd₀, hm₀, hfr₀, hov₀⟩ := ih rest hrest
          (DecodeSt.init max) [] SpecSt.init (matches_init max)
        rw [List.nil_append] at hd₀
        simp only [DecodeSt.init, SpecSt.init] at hd₀ hm₀ hfr₀ hov₀
        by_cases hrec : (buf ++ a).length ≤ max
        · -- the record fits: it is delivered
          have heq := @decode_scan_frame max srh (buf ++ a) rest hA
            (by simp only [List.length_append]; omega) hrec
          rw [← hshape] at heq
          have hcont := drain_cont heq (by simp)
          have hspec : specRun max ⟨false, buf⟩ (a ++ 0 :: rest) =
              ((specRun max ⟨false, []⟩ rest).1,
               (buf ++ a) :: (specRun max ⟨false, []⟩ rest).2.1,
               (specRun max ⟨false, []⟩ rest).2.2) := by
            rw [specRun_append, specRun_scan_nonul_small max a buf ha
              (by simp only [List.length_append] at hrec; omega)]
            simp [specRun, specByte_scan_z]
          rw [hspec]
          refine ⟨_, by rw [hcont, hd₀]; rfl, ?_, ?_, ?_⟩
          · exact hm₀
          · simp only [framesOf_append]
            simp only [framesOf, List.filterMap_cons] at hfr₀ ⊢
            simp [hfr₀]
          · simpa using hov₀
        · -- the record is oversize: one overflow, dropped in full
          have heq := @decode_scan_overflow max srh (buf ++ a) rest hA
            (by simp only [List.length_append]; omega) (by omega)
          rw [← hshape] at heq
          have hdr := drain_of_decode_prepend heq
          have hspec : specRun max ⟨false, buf⟩ (a ++ 0 :: rest) =
              ((specRun max ⟨false, []⟩ rest).1,
               (specRun max ⟨false, []⟩ rest).2.1,
               1 + (specRun max ⟨false, []⟩ rest).2.2) := by
            rw [specRun_append, specRun_scan_nonul_big max a buf ha hlen
              (by simp only [List.length_append] at hrec; omega)]
            simp [specRun, specByte_discard_z]
          rw [hspec]
          refine ⟨_, by rw [hdr, hd₀]; rfl, ?_, ?_, ?_⟩
          · exact hm₀
          · simp only [framesOf_append]
            simpa using hfr₀
          · simpa using hov₀

theorem runChunks_sim (max : Nat) : ∀ (cs : List (List Byte)) (st : DecodeSt)
    (buf : List Byte) (s : SpecSt), Matches st buf max s →
    ∃ R, runChunks cs st buf = some R ∧
      Matches R.st R.buf max (specRun max s cs.flatten).1 ∧
      framesOf R.events = (specRun max s cs.flatten).2.1 ∧
      R.overflow = (specRun max s cs.flatten).2.2 := by
  intro cs
  induction cs with
  | nil =>
    intro st buf s hm
    exact ⟨⟨st, buf, [], 0⟩, rfl, hm, rfl, rfl⟩
  | cons c cs ih =>
    intro st buf s hm
    obtain ⟨d, hd, hmd, hfrd, hovd⟩ := drain_sim max c.length c le_rfl st buf s hm
    obtain ⟨R, hR, hmR, hfrR, hovR⟩ := ih d.st d.buf _ hmd
    refine ⟨⟨R.st, R.buf, d.events ++ R.events, d.overflow + R.overflow⟩, ?_, ?_, ?_, ?_⟩
    · simp only [runChunks, hd, hR]
      rfl
    · rw [List.flatten_cons, specRun_append]
      exact hmR
    · rw [List.flatten_cons, specRun_append]
      simp only [framesOf_append, hfrd, hfrR]
    · rw [List.flatten_cons, specRun_append]
      simp only [hovd, hovR]

/-- The framer, fed any chunking of a byte stream from its initial state,
refines the spec-side record machine on the whole stream. -/
theorem tcpRun_sim (max : Nat) (chunks : List (List Byte)) :
    ∃ R, tcpRun max chunks = some R ∧
      Matches R.st R.buf max (specRun max SpecSt.init chunks.flatten).1 ∧
      framesOf R.events = (specRun max SpecSt.init chunks.flatten).2.1 ∧
      R.overflow = (specRun max SpecSt.init chunks.flatten).2.2 :=
  runChunks_sim max chunks (DecodeSt.init max) [] SpecSt.init (matches_init max)

/-! ## The record machine in terms of the record decomposition -/

theorem records_nonul : ∀ (c : List Byte), 0 ∉ c → records c = ([], c) := by
  intro c
  induction c with
  | nil => intro _; rfl
  | cons b bs ih =>
    intro h
    simp only [List.mem_cons, not_or] at h
    simp only [records]
    rw [if_neg (fun hz => h.1 hz.symm), ih h.2]

theorem records_split : ∀ (a : List Byte), 0 ∉ a → ∀ (rest : List Byte),
    records (a ++ 0 :: rest) = (a :: (records rest).1, (records rest).2) := by
  intro a
  induction a with
  | nil => intro _ rest; simp [records]
  | cons b a ih =>
    intro h rest
    simp only [List.mem_cons, not_or] at h
    simp only [List.cons_append, records, List.append_eq]
    rw [if_neg (fun hz => h.1 hz.symm), ih h.2 rest]

theorem specRun_record_small (max : Nat) (a rest : List Byte) (ha : 0 ∉ a)
    (hle : a.length ≤ max) :
    specRun max SpecSt.init (a ++ 0 :: rest) =
      ((specRun max SpecSt.init rest).1,
       a :: (specRun max SpecSt.init rest).2.1,
       (specRun max SpecSt.init rest).2.2) := by
  rw [specRun_append]
  rw [show SpecSt.init = (⟨false, []⟩ : SpecSt) from rfl]
  rw [specRun_scan_nonul_small max a [] ha (by simpa using hle)]
  simp [specRun, specByte_scan_z]

theorem specRun_record_big (max : Nat) (a rest : List Byte) (ha : 0 ∉ a)
    (hgt : max < a.length) :
    specRun max SpecSt.init (a ++ 0 :: rest) =
      ((specRun max SpecSt.init rest).1,
       (specRun max SpecSt.init rest).2.1,
       1 + (specRun max SpecSt.init rest).2.2) := by
  rw [specRun_append]
  rw [show SpecSt.init = (⟨false, []⟩ : SpecSt) from rfl]
  rw [specRun_scan_nonul_big max a [] ha (by simp) (by simpa using hgt)]
  simp [specRun, specByte_discard_z]

/-- On a whole stream, the record machine delivers exactly the complete records
of size at most `max`, and counts one overflow per complete record larger than
`max` plus one for an oversize trailing partial record. -/
theorem specRun_records (max : Nat) : ∀ (n : Nat) (S : List Byte), S.length ≤ n →
    (specRun max SpecSt.init S).2.1 =
      (records S).1.filter (fun r => decide (r.length ≤ max)) ∧
    (specRun max SpecSt.init S).2.2 =
      (records S).1.countP (fun r => decide (max < r.length)) +
      (if max < (records S).2.length then 1 else 0) := by
  intro n
  induction n with
  | zero =>
    intro S hS
    have hS0 : S = [] := List.length_eq_zero.mp (by omega)
    subst hS0
    simp [specRun, records]
  | succ n ih =>
    intro S hS
    rcases exists_nul_split S with hnS | ⟨a, rest, rfl, ha⟩
    · rw [records_nonul S hnS]
      rw [show SpecSt.init = (⟨false, []⟩ : SpecSt) from rfl]
      by_cases hbig : S.length ≤ max
      · rw [specRun_scan_nonul_small max S [] hnS (by simpa using hbig)]
        refine ⟨by simp, ?_⟩
        simp only [List.countP_nil]
        rw [if_neg (by omega)]
      · rw [specRun_scan_nonul_big max S [] hnS (by simp) (by simp; omega)]
        refine ⟨by simp, ?_⟩
        simp only [List.countP_nil]
        rw [if_pos (by omega)]
    · have hrest : rest.length ≤ n := by
        simp only [List.length_append, List.length_cons] at hS
        omega
      obtain ⟨ih1, ih2⟩ := ih rest hrest
      rw [records_split a ha rest]
      by_cases hle : a.length ≤ max
      · rw [specRun_record_small max a rest ha hle]
        constructor
        · simp only [List.filter_cons, ih1]
          rw [if_pos (by simpa using hle)]
        · simp only [List.countP_cons, ih2]
          have hd : (decide (max < a.length)) = false := by simp; omega
          rw [hd]
          simp only [if_neg Bool.false_ne_true]
          omega
      · rw [specRun_record_big max a rest ha (by omega)]
        constructor
        · simp only [List.filter_cons, ih1]
          rw [if_neg (by simp; omega)]
        · simp only [List.countP_cons, ih2]
          have hd : (decide (max < a.length)) = true := by simp; omega
          rw [hd]
          simp only [eq_self_iff_true, if_true]
          omega

/-! ## `decode` emits no end-of-stream frames; `decode_eof` facts -/

theorem decodeF_no_eof : ∀ (fuel : Nat) (st : DecodeSt) (src : List Byte) (r : DecRes),
    decodeF fuel st src = some r → ∀ f, Ev.eofFrame f ∉ r.events := by
  intro fuel
  induction fuel with
  | zero => intro st src r h; simp [decodeF] at h
  | succ fuel ih =>
    intro st src r h f
    obtain ⟨max, rh, disc⟩ := st
    simp only [decodeF] at h
    split at h
    · exact absurd h (by simp)
    · split at h
      · split at h
        · rcases Option.map_eq_some'.mp h with ⟨r₀, h₀, rfl⟩
          simp only [DecRes.prepend, List.mem_append, List.mem_singleton]
          rintro (hf | hf)
          · cases hf
          · exact ih _ _ _ h₀ f hf
        · split at h
          · rcases Option.map_eq_some'.mp h with ⟨r₀, h₀, rfl⟩
            simp only [DecRes.prepend, List.nil_append]
            exact ih _ _ _ h₀ f
          · cases h
            intro hf
            simp only [List.mem_singleton] at hf
            cases hf
      · split at h
        · split at h
          · cases h
            intro hf
            simp only [List.mem_singleton] at hf
            cases hf
          · rcases Option.map_eq_some'.mp h with ⟨r₀, h₀, rfl⟩
            simp only [DecRes.prepend, List.mem_append, List.mem_singleton]
            rintro (hf | hf)
            · cases hf
            · exact ih _ _ _ h₀ f hf
        · split at h
          · rcases Option.map_eq_some'.mp h with ⟨r₀, h₀, rfl⟩
            simp only [DecRes.prepend, List.nil_append]
            exact ih _ _ _ h₀ f
          · cases h
            intro hf
            simp at hf

theorem drainF_no_eof : ∀ (fuel : Nat) (st : DecodeSt) (src : List Byte) (d : DrainRes),
    drainF fuel st src = some d → ∀ f, Ev.eofFrame f ∉ d.events := by
  intro fuel
  induction fuel with
  | zero => intro st src d h; simp [drainF] at h
  | succ fuel ih =>
    intro st src d h f
    simp only [drainF] at h
    split at h
    · exact absurd h (by simp)
    · next r hr =>
      split at h
      · cases h
        exact decodeF_no_eof _ _ _ _ hr f
      · rcases Option.map_eq_some'.mp h with ⟨d₀, h₀, rfl⟩
        simp only [List.mem_append]
        rintro (hf | hf)
        · exact decodeF_no_eof _ _ _ _ hr f hf
        · exact ih _ _ _ h₀ f hf

theorem runChunks_no_eof : ∀ (cs : List (List Byte)) (st : DecodeSt) (buf : List Byte)
    (R : DrainRes), runChunks cs st buf = some R → ∀ f, Ev.eofFrame f ∉ R.events := by
  intro cs
  induction cs with
  | nil =>
    intro st buf R h f
    cases h
    simp
  | cons c cs ih =>
    intro st buf R h f
    simp only [runChunks] at h
    split at h
    · exact absurd h (by simp)
    · next d hd =>
      rcases Option.map_eq_some'.mp h with ⟨r, hr, rfl⟩
      simp only [List.mem_append]
      rintro (hf | hf)
      · exact drainF_no_eof _ _ _ _ hd f hf
      · exact ih _ _ _ hr f hf

/-- Every payload `decode_eof` hands to `receive` is at most `max` bytes. -/
theorem decode_eof_bounded {st : DecodeSt} {src : List Byte} {r : DecRes}
    (h : decode_eof st src = some r) :
    ∀ f, r.frame = some f → f.length ≤ st.max_size_bytes := by
  unfold decode_eof at h
  split at h
  · exact absurd h (by simp)
  · next r₀ hr₀ =>
    split at h
    · next x hx =>
      cases h
      exact (decode_frame_le hr₀).1
    · next hx =>
      split at h
      · cases h
        intro f hf
        rw [hx] at hf
        cases hf
      · next hne =>
        cases h
        intro f hf
        cases hf
        rcases decode_noframe hr₀ hx with ⟨_, hle, _⟩ | ⟨_, hemp, _⟩
        · exact hle
        · rw [hemp] at hne
          simp at hne

/-- When the inner `decode` produced no frame and residual bytes remain, the
final attempt takes the whole residue, passes it to `receive`, and empties the
buffer. -/
theorem decode_eof_residual {st : DecodeSt} {src : List Byte} {r : DecRes}
    (h : decode st src = some r) (hnf : r.frame = none) (hne : r.buf ≠ []) :
    decode_eof st src = some ⟨⟨r.st.max_size_bytes, 0, r.st.discarding⟩, [],
      r.events ++ [Ev.eofFrame r.buf], some r.buf, r.overflow⟩ := by
  unfold decode_eof
  rw [h]
  simp only [hnf]
  rw [if_neg (by simpa using hne)]

/-- When the inner `decode` produced no frame and no bytes remain, no extra
attempt is made. -/
theorem decode_eof_empty {st : DecodeSt} {src : List Byte} {r : DecRes}
    (h : decode st src = some r) (hnf : r.frame = none) (hemp : r.buf = []) :
    decode_eof st src = some r := by
  unfold decode_eof
  rw [h]
  simp only [hnf]
  rw [if_pos (by simp [hemp])]

/-- After a residual delivery the buffer is empty, and a further `decode_eof`
call passes nothing to `receive`. -/
theorem decode_eof_after (max : Nat) (disc : Bool) :
    ∃ r, decode_eof ⟨max, 0, disc⟩ [] = some r ∧ r.frame = none := by
  cases disc with
  | false =>
    have heq := @decode_scan_pending max 0 [] (by simp) (by simp) (by simp)
    exact ⟨_, decode_eof_empty heq rfl rfl, rfl⟩
  | true =>
    obtain ⟨evs, hdisc, hcons, heq⟩ := @decode_discard_nonul max 0 [] (by simp) (by simp)
    exact ⟨_, decode_eof_empty heq rfl rfl, rfl⟩

/-! ## Facts about the multiplexer `pollLoop` -/

theorem fillConns_done {σ : Type} (max : Nat) : ∀ (accs : List (AcceptPoll σ))
    (conns : List σ), ∃ accs2, fillConns max accs true conns = (true, conns, accs2) := by
  intro accs conns
  cases accs with
  | nil => exact ⟨[], rfl⟩
  | cons a rest =>
    simp only [fillConns]
    by_cases h : conns.length < max
    · rw [if_pos h]
      exact ⟨a :: rest, rfl⟩
    · rw [if_neg h]
      exact ⟨a :: rest, rfl⟩

theorem fillConns_full {σ : Type} (max : Nat) (accs : List (AcceptPoll σ)) (done : Bool)
    (conns : List σ) (h : conns.length = max) :
    fillConns max accs done conns = (done, conns, accs) := by
  cases accs with
  | nil =>
    cases max with
    | zero =>
      have : conns = [] := List.length_eq_zero.mp h
      subst this
      rfl
    | succ m => rfl
  | cons a rest =>
    simp only [fillConns]
    rw [if_neg (by omega)]

theorem fillConns_le {σ : Type} (max : Nat) : ∀ (accs : List (AcceptPoll σ)) (done : Bool)
    (conns : List σ), conns.length ≤ max →
    (fillConns max accs done conns).2.1.length ≤ max := by
  intro accs
  induction accs with
  | nil => intro done conns h; exact h
  | cons a rest ih =>
    intro done conns h
    simp only [fillConns]
    by_cases hlt : conns.length < max
    · rw [if_pos hlt]
      cases done with
      | true => exact h
      | false =>
        cases a with
        | ready s =>
          exact ih false (conns ++ [s])
            (by simp only [List.length_append, List.length_singleton]; omega)
        | closed => exact h
        | pending => exact h
    · rw [if_neg hlt]
      exact h

theorem pollLoop_le {σ τ ε : Type} (max : Nat) : ∀ (cps : List (ConnPoll τ ε)) (done : Bool)
    (conns : List σ) (accs : List (AcceptPoll σ)), conns.length ≤ max →
    (pollLoop max cps done conns accs).conns.length ≤ max := by
  intro cps
  induction cps with
  | nil =>
    intro done conns accs h
    have hf := fillConns_le max accs done conns h
    simp only [pollLoop]
    split
    · exact hf
    · exact hf
  | cons cp rest ih =>
    intro done conns accs h
    have hf := fillConns_le max accs done conns h
    cases cp with
    | pending =>
      simp only [pollLoop]
      split
      · exact hf
      · exact hf
    | ready i item =>
      cases item with
      | none =>
        simp only [pollLoop]
        split
        · next hi =>
          refine ih _ _ _ ?_
          rw [List.length_eraseIdx]
          simp only [hi, if_true]
          omega
        · split
          · exact hf
          · exact hf
      | some v =>
        cases v with
        | ok t =>
          simp only [pollLoop]
          split
          · next hi =>
            simp only [PollOut.conns, List.length_append, List.length_singleton]
            rw [List.length_eraseIdx]
            simp only [hi, if_true]
            omega
          · split
            · exact hf
            · exact hf
        | error e =>
          simp only [pollLoop]
          split
          · next hi =>
            simp only [PollOut.conns]
            rw [List.length_eraseIdx]
            simp only [hi, if_true]
            omega
          · split
            · exact hf
            · exact hf

theorem pollLoop_ended_done {σ τ ε : Type} (max : Nat) : ∀ (cps : List (ConnPoll τ ε))
    (done : Bool) (conns : List σ) (accs : List (AcceptPoll σ)) (d : Bool) (cs : List σ),
    pollLoop max cps done conns accs = PollOut.ended d cs → d = true := by
  intro cps
  induction cps with
  | nil =>
    intro done conns accs d cs h
    simp only [pollLoop] at h
    split at h
    · next hc =>
      cases h
      exact hc
    · cases h
  | cons cp rest ih =>
    intro done conns accs d cs h
    cases cp with
    | pending =>
      simp only [pollLoop] at h
      split at h
      · next hc =>
        cases h
        exact hc
      · cases h
    | ready i item =>
      cases item with
      | none =>
        simp only [pollLoop] at h
        split at h
        · exact ih _ _ _ _ _ h
        · split at h
          · next hc =>
            cases h
            exact hc
          · cases h
      | some v =>
        cases v with
        | ok t =>
          simp only [pollLoop] at h
          split at h
          · cases h
          · split at h
            · next hc =>
              cases h
              exact hc
            · cases h
        | error e =>
          simp only [pollLoop] at h
          split at h
          · cases h
          · split at h
            · next hc =>
              cases h
              exact hc
            · cases h

theorem pollLoop_closed_empty {σ τ ε : Type} (max : Nat) : ∀ (cps : List (ConnPoll τ ε))
    (accs : List (AcceptPoll σ)),
    pollLoop max cps true ([] : List σ) accs = PollOut.ended true [] := by
  intro cps accs
  obtain ⟨accs2, hf⟩ := fillConns_done max accs ([] : List σ)
  cases cps with
  | nil => simp [pollLoop, hf]
  | cons cp rest =>
    cases cp with
    | pending => simp [pollLoop, hf]
    | ready i item =>
      cases item with
      | none => simp [pollLoop, hf]
      | some v =>
        cases v with
        | ok t => simp [pollLoop, hf]
        | error e => simp [pollLoop, hf]

/-! ## The claims -/

/-- C1: no payload longer than `tcp_max_record_bytes` is ever passed to the
`receive` decoder — in any `decode` call, over any chunked stream, and in the
final `decode_eof` attempt; a record strictly longer than the maximum is
dropped in full including its trailing NUL delimiter (consumed as discard,
with one overflow count, never delivered); a record of length exactly the
maximum is still delivered. -/
theorem claim_C1 :
    (∀ (st : DecodeSt) (src : List Byte) (r : DecRes), decode st src = some r →
      (∀ f, r.frame = some f → f.length ≤ st.max_size_bytes) ∧
      (∀ f, Ev.frame f ∈ r.events → f.length ≤ st.max_size_bytes)) ∧
    (∀ (max : Nat) (chunks : List (List Byte)) (R : DrainRes),
      tcpRun max chunks = some R →
      ∀ f, Ev.frame f ∈ R.events → f.length ≤ max) ∧
    (∀ (st : DecodeSt) (src : List Byte) (r : DecRes), decode_eof st src = some r →
      ∀ f, r.frame = some f → f.length ≤ st.max_size_bytes) ∧
    (∀ (max : Nat) (rec d : List Byte), 0 ∉ rec → rec.length = max →
      decode (DecodeSt.init max) (rec ++ 0 :: d) =
        some ⟨DecodeSt.init max, d, [Ev.frame rec], some rec, 0⟩) ∧
    (∀ (max : Nat) (rec d : List Byte), 0 ∉ rec → max < rec.length →
      decode (DecodeSt.init max) (rec ++ 0 :: d) =
        (decode (DecodeSt.init max) d).map (DecRes.prepend [Ev.discard (rec ++ [0])] 1)) := by
  refine ⟨?_, ?_, ?_, ?_, ?_⟩
  · intro st src r h
    exact decode_frame_le h
  · intro max chunks R h f hf
    exact runChunks_frames_le chunks _ [] R h f hf
  · intro st src r h
    exact decode_eof_bounded h
  · intro max rec d h0 hlen
    exact @decode_scan_frame max 0 rec d h0 (by omega) (by omega)
  · intro max rec d h0 hlen
    exact @decode_scan_overflow max 0 rec d h0 (by omega) hlen

theorem claim_C1_witness :
    decode (DecodeSt.init 2) ([5, 5, 5] ++ 0 :: [7, 0]) =
      (decode (DecodeSt.init 2) [7, 0]).map
        (DecRes.prepend [Ev.discard ([5, 5, 5] ++ [0])] 1) :=
  claim_C1.2.2.2.2 2 [5, 5, 5] [7, 0] (by decide) (by decide)

/-- C2: for any chunking of a byte stream over one TCP connection, the frames
passed to the decoder are exactly the complete records of size at most the
maximum, in wire order — so the decoder is never invoked on an oversize
record — and `tcp_msg_overflow` is incremented exactly once per record
strictly longer than the maximum (including an unterminated oversize trailing
record). -/
theorem claim_C2 (max : Nat) (chunks : List (List Byte)) :
    ∃ R, tcpRun max chunks = some R ∧
      framesOf R.events =
        (records chunks.flatten).1.filter (fun r => decide (r.length ≤ max)) ∧
      R.overflow =
        (records chunks.flatten).1.countP (fun r => decide (max < r.length)) +
        (if max < (records chunks.flatten).2.length then 1 else 0) := by
  obtain ⟨R, hR, _, hfr, hov⟩ := tcpRun_sim max chunks
  obtain ⟨h1, h2⟩ := specRun_records max chunks.flatten.length chunks.flatten le_rfl
  exact ⟨R, hR, by rw [hfr, h1], by rw [hov, h2]⟩

/-- C3: for any chunking of a byte stream over one TCP connection, the bytes
consumed by the framer — each delivered frame followed by its NUL delimiter,
interleaved in order with the byte ranges consumed while discarding — followed
by the leftover buffer reconstitute the stream exactly; in particular the
consumed bytes are a prefix of the stream (and no end-of-stream event occurs
mid-stream). -/
theorem claim_C3 (max : Nat) (chunks : List (List Byte)) :
    ∃ R, tcpRun max chunks = some R ∧
      consumedBytes R.events ++ R.buf = chunks.flatten ∧
      consumedBytes R.events <+: chunks.flatten ∧
      (∀ f, Ev.eofFrame f ∉ R.events) := by
  obtain ⟨R, hR, _⟩ := tcpRun_sim max chunks
  have hc := runChunks_consumed chunks _ [] R hR
  rw [List.nil_append] at hc
  exact ⟨R, hR, hc, ⟨R.buf, hc⟩, fun f => runChunks_no_eof chunks _ [] R hR f⟩

/-- C4 counterexample: the merged output can end while a session is still in
the active set — with the acceptor closed and one pending session, a poll with
nothing ready returns end-of-stream even though the active set is nonempty. -/
theorem claim_C4_counterexample :
    pollLoop 1024 ([] : List (ConnPoll Nat Nat)) true [0] ([] : List (AcceptPoll Nat)) =
      PollOut.ended true [0] ∧ ([0] : List Nat) ≠ [] := by
  constructor
  · rfl
  · simp

/-- C4 (amended): the merged output ends exactly when the acceptor has
permanently closed and no session poll yields anything at that scheduling
point: with a closed acceptor and an empty active set every poll ends the
stream, and conversely the stream only ends when the acceptor is closed — but
a non-empty active set of merely pending sessions does not keep the output
alive. -/
theorem claim_C4_amended :
    (∀ (σ τ ε : Type) (max : Nat) (cps : List (ConnPoll τ ε))
      (accs : List (AcceptPoll σ)),
      pollLoop max cps true ([] : List σ) accs = PollOut.ended true []) ∧
    (∀ (σ τ ε : Type) (max : Nat) (cps : List (ConnPoll τ ε)) (done : Bool)
      (conns : List σ) (accs : List (AcceptPoll σ)) (d : Bool) (cs : List σ),
      pollLoop max cps done conns accs = PollOut.ended d cs → d = true) := by
  constructor
  · intro σ τ ε max cps accs
    exact pollLoop_closed_empty max cps accs
  · intro σ τ ε max cps done conns accs d cs h
    exact pollLoop_ended_done max cps done conns accs d cs h

theorem claim_C4_amended_witness :
    pollLoop 5 ([] : List (ConnPoll Nat Nat)) true ([] : List Nat)
      ([] : List (AcceptPoll Nat)) = PollOut.ended true [] ∧ (true : Bool) = true :=
  ⟨claim_C4_amended.1 Nat Nat Nat 5 [] [],
   claim_C4_amended.2 Nat Nat Nat 5 [] true [] [] true [] (by decide)⟩

/-- C5: the active set never exceeds the cap — which `tcp::Server::build`
fixes at 1024 — because a new connection is admitted only while the set is
below the cap and none is admitted at capacity; a session yielding a value is
put back into the set, while a session yielding an error, or whose stream has
ended, is removed. -/
theorem claim_C5 :
    maxConnections = 1024 ∧
    (∀ (σ τ ε : Type) (max : Nat) (cps : List (ConnPoll τ ε)) (done : Bool)
      (conns : List σ) (accs : List (AcceptPoll σ)), conns.length ≤ max →
      (pollLoop max cps done conns accs).conns.length ≤ max) ∧
    (∀ (σ : Type) (max : Nat) (accs : List (AcceptPoll σ)) (done : Bool)
      (conns : List σ), conns.length = max →
      fillConns max accs done conns = (done, conns, accs)) ∧
    (∀ (σ τ ε : Type) (max : Nat) (cps : List (ConnPoll τ ε)) (done : Bool)
      (conns : List σ) (accs : List (AcceptPoll σ)) (i : Nat) (t : τ)
      (h : i < (fillConns max accs done conns).2.1.length),
      pollLoop max (ConnPoll.ready i (some (Except.ok t)) :: cps) done conns accs =
        PollOut.item (Except.ok t) (fillConns max accs done conns).1
          ((fillConns max accs done conns).2.1.eraseIdx i ++
            [(fillConns max accs done conns).2.1.get ⟨i, h⟩]) ∧
      (fillConns max accs done conns).2.1.get ⟨i, h⟩ ∈
        (pollLoop max (ConnPoll.ready i (some (Except.ok t)) :: cps)
          done conns accs).conns) ∧
    (∀ (σ τ ε : Type) (max : Nat) (cps : List (ConnPoll τ ε)) (done : Bool)
      (conns : List σ) (accs : List (AcceptPoll σ)) (i : Nat) (e : ε),
      i < (fillConns max accs done conns).2.1.length →
      pollLoop max (ConnPoll.ready i (some (Except.error e)) :: cps) done conns accs =
        PollOut.item (Except.error e) (fillConns max accs done conns).1
          ((fillConns max accs done conns).2.1.eraseIdx i)) ∧
    (∀ (σ τ ε : Type) (max : Nat) (cps : List (ConnPoll τ ε)) (done : Bool)
      (conns : List σ) (accs : List (AcceptPoll σ)) (i : Nat),
      i < (fillConns max accs done conns).2.1.length →
      pollLoop max (ConnPoll.ready i none :: cps) done conns accs =
        pollLoop max cps (fillConns max accs done conns).1
          ((fillConns max accs done conns).2.1.eraseIdx i)
          (fillConns max accs done conns).2.2) := by
  refine ⟨rfl, ?_, ?_, ?_, ?_, ?_⟩
  · intro σ τ ε max cps done conns accs h
    exact pollLoop_le max cps done conns accs h
  · intro σ max accs done conns h
    exact fillConns_full max accs done conns h
  · intro σ τ ε max cps done conns accs i t h
    constructor
    · simp only [pollLoop]
      rw [dif_pos h]
    · simp only [pollLoop]
      rw [dif_pos h]
      simp [PollOut.conns]
  · intro σ τ ε max cps done conns accs i e h
    simp only [pollLoop]
    rw [if_pos h]
  · intro σ τ ε max cps done conns accs i h
    simp only [pollLoop]
    rw [if_pos h]

theorem claim_C5_witness :
    (pollLoop 1024 ([] : List (ConnPoll Nat Nat)) true [7, 8]
      ([] : List (AcceptPoll Nat))).conns.length ≤ 1024 ∧
    pollLoop 1024 ([ConnPoll.ready 0 (some (Except.error 9))] : List (ConnPoll Nat Nat))
      true ([7, 8] : List Nat) ([] : List (AcceptPoll Nat)) =
      PollOut.item (Except.error (9 : Nat)) true [8] :=
  ⟨claim_C5.2.1 Nat Nat Nat 1024 [] true [7, 8] [] (by decide),
   claim_C5.2.2.2.2.1 Nat Nat Nat 1024 [] true [7, 8] [] 0 9 (by decide)⟩

/-- C6 counterexample: the event loop has a third termination path besides the
close and interrupt signals — if the receiver stream terminates (`msg none`),
the loop hits the `unreachable!` panic rather than continuing. -/
theorem claim_C6_counterexample :
    loopStep (fun _ : Unit => Except.ok ()) ⟨0, 0, 0, 0⟩
        (LoopEvent.msg (none : Option (Except Unit (ReceivedV Unit)))) =
      (⟨0, 0, 0, 0⟩, LoopControl.fatal) ∧
    LoopControl.fatal ≠ LoopControl.exit ∧ LoopControl.fatal ≠ LoopControl.next := by
  refine ⟨rfl, by decide, by decide⟩

/-- C6 (amended): receiver errors and processor failures never terminate the
loop — an error event increments `receive_err` and continues, a failed
`process` call increments `process_err` and continues — and the loop breaks
exactly on the close or interrupt signals; the only other exit is the
`unreachable!` panic on receiver-stream termination, a defended-against
programming error. -/
theorem claim_C6_amended :
    (∀ (μ ε : Type) (p : μ → Except ε Unit) (c : Counters) (e : ε),
      loopStep p c (LoopEvent.msg (some (Except.error e))) =
        ({ c with receive_err := c.receive_err + 1 }, LoopControl.next)) ∧
    (∀ (μ ε : Type) (p : μ → Except ε Unit) (c : Counters) (m : μ) (e : ε),
      p m = Except.error e →
      loopStep p c (LoopEvent.msg (some (Except.ok (ReceivedV.complete m)))) =
        ({ c with receive_ok := c.receive_ok + 1, process_err := c.process_err + 1 },
          LoopControl.next)) ∧
    (∀ (μ ε : Type) (p : μ → Except ε Unit) (c : Counters) (ev : LoopEvent μ ε),
      (loopStep p c ev).2 = LoopControl.exit ↔ ev = LoopEvent.close ∨ ev = LoopEvent.ctrlc) ∧
    (∀ (μ ε : Type) (p : μ → Except ε Unit) (c : Counters) (ev : LoopEvent μ ε),
      (loopStep p c ev).2 = LoopControl.fatal ↔ ev = LoopEvent.msg none) := by
  refine ⟨?_, ?_, ?_, ?_⟩
  · intro μ ε p c e
    rfl
  · intro μ ε p c m e hp
    simp only [loopStep, hp]
  · intro μ ε p c ev
    cases ev with
    | msg x =>
      cases x with
      | none => simp [loopStep]
      | some v =>
        cases v with
        | ok rv =>
          cases rv with
          | incomplete => simp [loopStep]
          | complete m =>
            cases hp : p m with
            | ok u => simp [loopStep, hp]
            | error e => simp [loopStep, hp]
        | error e => simp [loopStep]
    | close => simp [loopStep]
    | ctrlc => simp [loopStep]
  · intro μ ε p c ev
    cases ev with
    | msg x =>
      cases x with
      | none => simp [loopStep]
      | some v =>
        cases v with
        | ok rv =>
          cases rv with
          | incomplete => simp [loopStep]
          | complete m =>
            cases hp : p m with
            | ok u => simp [loopStep, hp]
            | error e => simp [loopStep, hp]
        | error e => simp [loopStep]
    | close => simp [loopStep]
    | ctrlc => simp [loopStep]

theorem claim_C6_amended_witness :
    loopStep (fun _ : Unit => (Except.error () : Except Unit Unit)) ⟨1, 2, 3, 4⟩
        (LoopEvent.msg (some (Except.ok (ReceivedV.complete ())))) =
      (⟨2, 2, 3, 5⟩, LoopControl.next) :=
  claim_C6_amended.2.1 Unit Unit (fun _ => Except.error ()) ⟨1, 2, 3, 4⟩ () () rfl

/-- C7: when the keep-alive timer elapses, `TimeoutStream::poll_next` turns
the timeout into a clean end-of-stream — not an error item, so the event loop
never counts a `receive_err` for it — and increments `tcp_conn_timeout`
exactly on that poll (no other poll outcome increments it); the multiplexer
then evicts the ended session silently. -/
theorem claim_C7 :
    (∀ (α : Type), @timeoutPoll α TimerPoll.elapsed = (TimeoutOut.ended, 1)) ∧
    (∀ (α : Type) (a : α), timeoutPoll (TimerPoll.item a) = (TimeoutOut.item a, 0)) ∧
    (∀ (α : Type), @timeoutPoll α TimerPoll.closed = (TimeoutOut.ended, 0)) ∧
    (∀ (α : Type), @timeoutPoll α TimerPoll.pending = (TimeoutOut.pending, 0)) ∧
    (∀ (α : Type) (p : TimerPoll α), (timeoutPoll p).2 = 1 ↔ p = TimerPoll.elapsed) ∧
    (∀ (σ τ ε : Type) (max : Nat) (cps : List (ConnPoll τ ε)) (done : Bool)
      (conns : List σ) (accs : List (AcceptPoll σ)) (i : Nat),
      i < (fillConns max accs done conns).2.1.length →
      pollLoop max (ConnPoll.ready i none :: cps) done conns accs =
        pollLoop max cps (fillConns max accs done conns).1
          ((fillConns max accs done conns).2.1.eraseIdx i)
          (fillConns max accs done conns).2.2) := by
  refine ⟨fun α => rfl, fun α a => rfl, fun α => rfl, fun α => rfl, ?_, ?_⟩
  · intro α p
    cases p <;> simp [timeoutPoll]
  · intro σ τ ε max cps done conns accs i h
    simp only [pollLoop]
    rw [if_pos h]

theorem claim_C7_witness :
    pollLoop 1024 [ConnPoll.ready 0 (none : Option (Except Nat Nat))] false
      ([3] : List Nat) ([] : List (AcceptPoll Nat)) =
      pollLoop 1024 ([] : List (ConnPoll Nat Nat)) false ([] : List Nat) [] :=
  claim_C7.2.2.2.2.2 Nat Nat Nat 1024 [] false [3] [] 0 (by decide)

/-- C8: at end-of-stream, if the last `decode` left residual bytes and no
frame, `decode_eof` makes exactly one final attempt passing all residual bytes
to `receive` as if they were a complete record and empties the buffer (so a
repeat call yields nothing); if no residual bytes remain, no extra attempt is
made. -/
theorem claim_C8 :
    (∀ (st : DecodeSt) (src : List Byte) (r : DecRes), decode st src = some r →
      r.frame = none → r.buf ≠ [] →
      decode_eof st src = some ⟨⟨r.st.max_size_bytes, 0, r.st.discarding⟩, [],
        r.events ++ [Ev.eofFrame r.buf], some r.buf, r.overflow⟩) ∧
    (∀ (st : DecodeSt) (src : List Byte) (r : DecRes), decode st src = some r →
      r.frame = none → r.buf = [] → decode_eof st src = some r) ∧
    (∀ (max : Nat) (disc : Bool),
      ∃ r, decode_eof ⟨max, 0, disc⟩ [] = some r ∧ r.frame = none) := by
  refine ⟨?_, ?_, ?_⟩
  · intro st src r h hnf hne
    exact decode_eof_residual h hnf hne
  · intro st src r h hnf hemp
    exact decode_eof_empty h hnf hemp
  · intro max disc
    exact decode_eof_after max disc

theorem claim_C8_witness :
    decode_eof (DecodeSt.init 4) [79, 75] =
      some ⟨⟨4, 0, false⟩, [], [Ev.eofFrame [79, 75]], some [79, 75], 0⟩ :=
  claim_C8.1 (DecodeSt.init 4) [79, 75] ⟨⟨4, 2, false⟩, [79, 75], [], none, 0⟩
    (by decide) (by decide) (by decide)

/-- C9: while the framer is discarding, no frame is passed to `receive` and no
item is returned until a NUL delimiter is found: a delimiter-free buffer is
consumed entirely as discard events with the framer still discarding, and once
a delimiter appears everything up to and including it is consumed as discard
and the framer continues exactly as the clean scanning state (read head zero)
on the remaining bytes. -/
theorem claim_C9 :
    (∀ (max : Nat) (src : List Byte), 0 ∉ src →
      ∃ evs, (∀ e ∈ evs, ∃ bs, e = Ev.discard bs) ∧ consumedBytes evs = src ∧
        decode ⟨max, 0, true⟩ src = some ⟨⟨max, 0, true⟩, [], evs, none, 0⟩) ∧
    (∀ (max : Nat) (a d : List Byte), 0 ∉ a →
      decode ⟨max, 0, true⟩ (a ++ 0 :: d) =
        (decode (DecodeSt.init max) d).map
          (DecRes.prepend [Ev.discard (a ++ [0])] 0)) := by
  constructor
  · intro max src h0
    exact @decode_discard_nonul max 0 src h0 (by simp)
  · intro max a d h0
    exact @decode_discard_resync max 0 a d h0 (by simp)

theorem claim_C9_witness :
    decode ⟨1, 0, true⟩ ([9] ++ 0 :: [8, 0]) =
      (decode (DecodeSt.init 1) [8, 0]).map
        (DecRes.prepend [Ev.discard ([9] ++ [0])] 0) :=
  claim_C9.2 1 [9] [8, 0] (by decide)

/-- C10: `decode` is total and in-bounds: whenever the read head is within the
buffer — which holds initially and is re-established by every call, and is
preserved by appending bytes — `decode` returns a result instead of hitting
the `src[read_head..]` panic, for every configured maximum including
`usize::MAX`, where `max + 1` is computed with `saturating_add`; consequently
the whole chunked run never panics. -/
theorem claim_C10 :
    (∀ (st : DecodeSt) (src : List Byte), st.read_head ≤ src.length →
      ∃ r, decode st src = some r ∧ r.st.read_head ≤ r.buf.length) ∧
    (∀ (rh : Nat) (src : List Byte) (disc : Bool), rh ≤ src.length →
      ∃ r, decode ⟨usizeMax, rh, disc⟩ src = some r) ∧
    (∀ (rh : Nat) (buf chunk : List Byte), rh ≤ buf.length →
      rh ≤ (buf ++ chunk).length) ∧
    (∀ (max : Nat) (chunks : List (List Byte)), tcpRun max chunks ≠ none) := by
  refine ⟨?_, ?_, ?_, ?_⟩
  · intro st src h
    exact decode_total h
  · intro rh src disc h
    obtain ⟨r, hr, _⟩ := @decode_total ⟨usizeMax, rh, disc⟩ src h
    exact ⟨r, hr⟩
  · intro rh buf chunk h
    simp only [List.length_append]
    omega
  · intro max chunks
    obtain ⟨R, hR, _⟩ := runChunks_total chunks (DecodeSt.init max) [] (by simp [DecodeSt.init])
    simp only [tcpRun, hR]
    exact Option.noConfusion

theorem claim_C10_witness :
    ∃ r, decode ⟨4, 1, false⟩ [1, 2] = some r ∧ r.st.read_head ≤ r.buf.length :=
  claim_C10.1 ⟨4, 1, false⟩ [1, 2] (by decide)

end Sqelf
